import Mathlib

/-!
# DNS message decoder of `src/models/message.go`

A shallow embedding of the wire-format decoder (`MarshalDNS` and its helpers)
together with theorems about it.

Modelling conventions.

* A Go byte is a `Fin 256`; every arithmetic result is a `Nat`, reduced with an
  explicit `% 2 ^ w` wherever the source computes in `uint8`, `uint16` or
  `uint32`.
* A Go slice is a `Slice`: the `len` visible elements (`vis`) and the elements
  of the backing array between `len` and `cap` (`spare`).  Indexing is checked
  against `len`, a slice expression `s[lo:hi]` against `cap`, and `s[lo:]`
  against `len`, as the Go language specification prescribes.
* A Go run-time panic and a loop that never leaves are the `error` side of
  `Except Fault`; the Go `error` return value is an `Option DecodeError`
  component of the result (`none` is Go's `nil`).
-/

namespace Models

/-- One octet of the wire format (Go `byte`). -/
abbrev Byte := Fin 256

/-- Ways in which running the Go code fails to return. -/
inductive Fault where
  /-- Run-time panic `index out of range`. -/
  | indexOutOfRange
  /-- Run-time panic `slice bounds out of range`. -/
  | sliceBounds
  /-- The loop of `marshalNameLabels` never leaves. -/
  | noTermination
deriving DecidableEq, Repr

/-- Modelled from the spec: the source declares no error value at all (every
function returns a `nil` error); the two constructors are the error taxonomy
of section 7 of the specification. -/
inductive DecodeError where
  | TruncatedInput
  | UnsupportedCompression
deriving DecidableEq, Repr

/-- A Go `[]byte`: `vis` holds the `len` elements reachable by indexing,
`spare` the further elements of the backing array up to the capacity. -/
structure Slice where
  vis : List Byte
  spare : List Byte
deriving DecidableEq, Repr

namespace Slice

/-- Go `len(s)`. -/
def len (s : Slice) : Nat := s.vis.length

/-- Go `cap(s)`. -/
def cap (s : Slice) : Nat := s.vis.length + s.spare.length

/-- The backing array from the start of the slice to its capacity. -/
def mem (s : Slice) : List Byte := s.vis ++ s.spare

/-- A slice whose capacity equals its length, such as a `[]byte{...}` literal. -/
def ofList (l : List Byte) : Slice := ⟨l, []⟩

/-- Go `s[i]`: panics unless `i < len(s)`. -/
def index (s : Slice) (i : Nat) : Except Fault Byte :=
  match s.vis[i]? with
  | some b => .ok b
  | none => .error .indexOutOfRange

/-- Go `s[lo:]`: panics unless `lo ≤ len(s)`. -/
def sliceFrom (s : Slice) (lo : Nat) : Except Fault Slice :=
  if lo ≤ s.len then .ok ⟨s.vis.drop lo, s.spare⟩ else .error .sliceBounds

/-- Go `s[lo:hi]`: panics unless `lo ≤ hi ≤ cap(s)`. -/
def slice (s : Slice) (lo hi : Nat) : Except Fault Slice :=
  if lo ≤ hi ∧ hi ≤ s.cap then
    .ok ⟨(s.mem.drop lo).take (hi - lo), s.mem.drop hi⟩
  else .error .sliceBounds

end Slice

/-- Go `binary.BigEndian.Uint16(b)`: `_ = b[1]` as bounds check, then
`uint16(b[1]) | uint16(b[0])<<8`. -/
def BigEndian.Uint16 (b : Slice) : Except Fault Nat := do
  let b1 ← b.index 1
  let b0 ← b.index 0
  pure ((b1.val ||| (b0.val <<< 8)) % 2 ^ 16)

/-- Go `DnsHeader`. -/
structure DnsHeader where
  ID : Nat
  QR : Nat
  OPCODE : Nat
  AA : Nat
  TC : Nat
  RD : Nat
  RA : Nat
  Z : Nat
  RCODE : Nat
  QDCOUNT : Nat
  ADCOUNT : Nat
  NSCOUNT : Nat
  ARCOUNT : Nat
deriving DecidableEq, Repr

/-- Go `const HdrLen uint8 = 12`. -/
def HdrLen : Nat := 12

/-- Go `QNameLabel`; `Data` is the visible content of the slice stored there. -/
structure QNameLabel where
  Length : Nat
  Data : List Byte
deriving DecidableEq, Repr

/-- Go `DnsQuestion`. -/
structure DnsQuestion where
  QNAME : List QNameLabel
  QTYPE : Nat
  QCLASS : Nat
deriving DecidableEq, Repr

/-- Go `DnsRR`. -/
structure DnsRR where
  NAME : List Byte
  TYPE : Nat
  CLASS : Nat
  TTL : Nat
  RDLENGTH : Nat
  RDATA : List Byte
deriving DecidableEq, Repr

/-- Go `DnsMessage`. -/
structure DnsMessage where
  Hdr : DnsHeader
  Questions : List DnsQuestion
  Answers : List DnsRR
  Authorities : List DnsRR
  Additionals : List DnsRR
deriving DecidableEq, Repr

/-- The zero value of `DnsHeader`. -/
def DnsHeader.zero : DnsHeader := ⟨0, 0, 0, 0, 0, 0, 0, 0, 0, 0, 0, 0, 0⟩

/-- The zero value of `DnsMessage` (Go `var message DnsMessage`). -/
def DnsMessage.zero : DnsMessage := ⟨DnsHeader.zero, [], [], [], []⟩

/-- Query type `A`. -/
def A : Nat := 1

/-- Query class `IN`. -/
def IN : Nat := 1

/-- Go `marshalDNSHdr`. -/
def marshalDNSHdr (data : Slice) : Except Fault (DnsHeader × Option DecodeError) := do
  let id ← BigEndian.Uint16 (← data.slice 0 2)
  let qr := ((← data.index 2).val &&& 0x80) >>> 7
  let opcode := ((← data.index 3).val &&& 0x78) >>> 3
  let aa := ((← data.index 2).val &&& 0x04) >>> 2
  let tc := ((← data.index 2).val &&& 0x02) >>> 1
  let rd := ((← data.index 2).val &&& 0x01) >>> 0
  let ra := ((← data.index 3).val &&& 0x80) >>> 7
  let z := ((← data.index 3).val &&& 0x70) >>> 4
  let rcode := ((← data.index 3).val &&& 0x0F) >>> 0
  let qdcount ← BigEndian.Uint16 (← data.slice 4 6)
  let adcount ← BigEndian.Uint16 (← data.slice 6 8)
  let nscount ← BigEndian.Uint16 (← data.slice 8 10)
  let arcount ← BigEndian.Uint16 (← data.slice 10 12)
  pure (⟨id, qr, opcode, aa, tc, rd, ra, z, rcode, qdcount, adcount, nscount, arcount⟩, none)

/-- Go `marshalNameLabel`; `label.Length+1` is computed in `uint8`. -/
def marshalNameLabel (data : Slice) : Except Fault (QNameLabel × Nat) := do
  let length := (← data.index 0).val
  let d ← data.slice 1 ((length + 1) % 2 ^ 8)
  pure (⟨length, d.vis⟩, (length + 1) % 2 ^ 8)

/-- The `for data[offset] != 0x00` loop of `marshalNameLabels`, with the labels
collected so far and the `uint32` offset as state.  The fuel bounds the number
of times the loop condition is evaluated. -/
def marshalNameLabelsLoop (data : Slice) :
    Nat → List QNameLabel → Nat → Except Fault (List QNameLabel × Nat)
  | 0, _, _ => .error .noTermination
  | fuel + 1, labels, offset => do
    if (← data.index offset).val ≠ 0 then
      let (label, off) ← marshalNameLabel (← data.sliceFrom offset)
      marshalNameLabelsLoop data fuel (labels ++ [label]) ((offset + off) % 2 ^ 32)
    else
      pure (labels, offset)

/-- Go `marshalNameLabels`.  The loop is run with fuel `len(data) + 1`.  With a
capacity below `2 ^ 32` that fuel is never used up (`marshalNameLabels_ends`);
beyond that, every evaluation of the condition that continues reads an
in-range offset, so a run with more evaluations has read some offset twice.
A result other than `noTermination` does not depend on the fuel
(`marshalNameLabelsLoop_fuel_mono`). -/
def marshalNameLabels (data : Slice) : Except Fault (List QNameLabel × Nat) :=
  marshalNameLabelsLoop data (data.len + 1) [] 0

/-- Go `marshalDnsQuestion`; offsets are `uint32`. -/
def marshalDnsQuestion (data : Slice) :
    Except Fault (DnsQuestion × Nat × Option DecodeError) := do
  let offset := 0
  let (qname, off) ← marshalNameLabels (← data.sliceFrom offset)
  let offset := (offset + off) % 2 ^ 32
  let qtype ← BigEndian.Uint16 (← data.slice offset ((offset + 2) % 2 ^ 32))
  let offset := (offset + 2) % 2 ^ 32
  let qclass ← BigEndian.Uint16 (← data.slice offset ((offset + 2) % 2 ^ 32))
  let offset := (offset + 2) % 2 ^ 32
  pure (⟨qname, qtype, qclass⟩, offset, none)

/-- The `for iter := uint32(0); iter < uint32(num); iter++` loop of
`marshalDnsQuestions`; the first argument is the number of iterations left. -/
def marshalDnsQuestionsLoop (data : Slice) :
    Nat → List DnsQuestion → Nat →
      Except Fault (List DnsQuestion × Nat × Option DecodeError)
  | 0, questions, offset => pure (questions, offset, none)
  | left + 1, questions, offset => do
    let (question, off, err) ← marshalDnsQuestion (← data.sliceFrom offset)
    match err with
    | some e => pure (questions, offset, some e)
    | none =>
      marshalDnsQuestionsLoop data left (questions ++ [question]) ((offset + off) % 2 ^ 32)

/-- Go `marshalDnsQuestions`; `num` is a `uint16`. -/
def marshalDnsQuestions (data : Slice) (num : Nat) :
    Except Fault (List DnsQuestion × Nat × Option DecodeError) :=
  marshalDnsQuestionsLoop data num [] 0

/-- Go `MarshalDNS`. -/
def MarshalDNS (data : Slice) : Except Fault (DnsMessage × Option DecodeError) := do
  let message := DnsMessage.zero
  let offset := 0
  let (hdr, err) ← marshalDNSHdr (← data.slice offset HdrLen)
  let message := { message with Hdr := hdr }
  match err with
  | some e => pure (message, some e)
  | none =>
    let offset := (offset + HdrLen) % 2 ^ 32
    if message.Hdr.QDCOUNT > 0 then
      let (questions, _off, err) ←
        marshalDnsQuestions (← data.sliceFrom offset) message.Hdr.QDCOUNT
      let message := { message with Questions := questions }
      match err with
      | some e => pure (message, some e)
      | none => pure (message, none)
    else
      pure (message, none)

/-- The 29-byte datagram of the end-to-end example: a header with
`ID = 0x1234`, `RD` set and `QDCOUNT = 1`, then `example.com`, type `A`,
class `IN`. -/
def exampleQuery : List Byte :=
  [0x12, 0x34, 0x01, 0x00, 0x00, 0x01, 0x00, 0x00, 0x00, 0x00, 0x00, 0x00,
   0x07, 0x65, 0x78, 0x61, 0x6D, 0x70, 0x6C, 0x65, 0x03, 0x63, 0x6F, 0x6D, 0x00,
   0x00, 0x01, 0x00, 0x01]

/-- Wire encoding of one label as the specification words it: the length byte,
then the label bytes. -/
def encodeLabel (l : List Byte) : List Byte :=
  (⟨l.length % 256, Nat.mod_lt _ (by decide)⟩ : Byte) :: l

/-- Wire encoding of a sequence of labels, without the terminator byte. -/
def encodeLabels : List (List Byte) → List Byte
  | [] => []
  | l :: ls => encodeLabel l ++ encodeLabels ls

/-- The decoded form `(L, bytes)` of a label. -/
def toLabel (l : List Byte) : QNameLabel := ⟨l.length, l⟩

/-- The question section of `exampleQuery` up to the terminator: the name
`example.com` as `07 "example" 03 "com" 00` (13 bytes). -/
def exampleName : List Byte :=
  [0x07, 0x65, 0x78, 0x61, 0x6D, 0x70, 0x6C, 0x65, 0x03, 0x63, 0x6F, 0x6D, 0x00]

/-- A question for the name `a` with the unassigned type `0x0045` and class
`IN`: `01 61 00 | 00 45 | 00 01`. -/
def unknownTypeQuestion : List Byte :=
  [0x01, 0x61, 0x00, 0x00, 0x45, 0x00, 0x01]

/-- A 12-byte header with byte 2 equal to `0x01` and byte 3 equal to `0x08`. -/
def opcodeHeader : List Byte :=
  [0x00, 0x00, 0x01, 0x08, 0x00, 0x00, 0x00, 0x00, 0x00, 0x00, 0x00, 0x00]

/-- A 26-byte datagram: a header with `QDCOUNT = 2`, then the questions
`01 61 00 | 00 01 | 00 01` (name `a`, type `A`, class `IN`) and
`01 62 00 | 00 01 | 00 01` (name `b`, type `A`, class `IN`). -/
def twoQuestionQuery : List Byte :=
  [0x00, 0x07, 0x01, 0x00, 0x00, 0x02, 0x00, 0x00, 0x00, 0x00, 0x00, 0x00,
   0x01, 0x61, 0x00, 0x00, 0x01, 0x00, 0x01,
   0x01, 0x62, 0x00, 0x00, 0x01, 0x00, 0x01]

/-- A name whose only label announces 5 bytes while 1 byte remains. -/
def truncatedName : List Byte := [0x05, 0x61]

/-- A name whose buffer ends after a complete label, before any terminator. -/
def unterminatedName : List Byte := [0x01, 0x61]

/-- A datagram with `QDCOUNT = 1` whose question section is `truncatedName`. -/
def truncatedQuery : List Byte :=
  [0x00, 0x07, 0x01, 0x00, 0x00, 0x01, 0x00, 0x00, 0x00, 0x00, 0x00, 0x00, 0x05, 0x61]

/-- The run ends in a Go run-time panic (and not in a returned value, nor in a
loop that never leaves). -/
def Panics {α : Type} (r : Except Fault α) : Prop :=
  r = .error .indexOutOfRange ∨ r = .error .sliceBounds

/-- The name `a` with nothing after its terminator: `01 61 00`. -/
def nameOnly : List Byte := [0x01, 0x61, 0x00]

/-- The name `a` followed by exactly three bytes: `01 61 00 | 00 01 00`. -/
def nameThreeBytes : List Byte := [0x01, 0x61, 0x00, 0x00, 0x01, 0x00]

/-- A 12-byte datagram: a header with `QDCOUNT = 1` and no question section. -/
def headerOnlyQuery : List Byte :=
  [0x00, 0x07, 0x01, 0x00, 0x00, 0x01, 0x00, 0x00, 0x00, 0x00, 0x00, 0x00]

/-- A 14-byte datagram: a header with `QDCOUNT = 0`, `ADCOUNT = 1`,
`NSCOUNT = 2`, `ARCOUNT = 3`, then two further bytes. -/
def recordCountsQuery : List Byte :=
  [0x00, 0x07, 0x81, 0x80, 0x00, 0x00, 0x00, 0x01, 0x00, 0x02, 0x00, 0x03, 0xC0, 0x0C]

/-- The length byte `0xFF` followed by 255 bytes (`0x61` each). -/
def maxLengthLabel : List Byte := 0xFF :: List.replicate 255 0x61

/-- The name `a` (`01 61 00`) as a 3-byte slice of an array whose next three
bytes are `00 01 00`. -/
def nameInLargerArray : Slice := ⟨[0x01, 0x61, 0x00], [0x00, 0x01, 0x00]⟩

/-- The single length byte `01` as a 1-byte slice of an array whose next byte
is `61`. -/
def lengthByteInLargerArray : Slice := ⟨[0x01], [0x61]⟩

/-! ## Evaluation rules for the slice operations -/

theorem ok_bind {α β : Type} (a : α) (f : α → Except Fault β) :
    (Except.ok a >>= f) = f a := rfl

theorem error_bind {α β : Type} (e : Fault) (f : α → Except Fault β) :
    (Except.error e >>= f) = Except.error e := rfl

theorem Slice.index_append (pre : List Byte) (b : Byte) (rest spare : List Byte) :
    (Slice.mk (pre ++ b :: rest) spare).index pre.length = .ok b := by
  unfold Slice.index
  simp only [List.getElem?_append_right (Nat.le_refl pre.length), Nat.sub_self,
    List.getElem?_cons_zero]

theorem Slice.index_of_le (s : Slice) (i : Nat) (h : s.len ≤ i) :
    s.index i = .error .indexOutOfRange := by
  unfold Slice.index
  rw [List.getElem?_eq_none (by simpa [Slice.len] using h)]

theorem Slice.sliceFrom_append (pre t spare : List Byte) :
    (Slice.mk (pre ++ t) spare).sliceFrom pre.length = .ok ⟨t, spare⟩ := by
  simp [Slice.sliceFrom, Slice.len]

theorem ok_map {α β : Type} (a : α) (f : α → β) :
    (f <$> (Except.ok a : Except Fault α)) = Except.ok (f a) := rfl

theorem marshalNameLabel_encodeLabel (l rest spare : List Byte) (h : l.length ≤ 254) :
    marshalNameLabel ⟨encodeLabel l ++ rest, spare⟩ = .ok (toLabel l, l.length + 1) := by
  have h1 : l.length % 256 = l.length := Nat.mod_eq_of_lt (by omega)
  have h2 : (l.length + 1) % 256 = l.length + 1 := Nat.mod_eq_of_lt (by omega)
  have h3 : l.length + 1 ≤ l.length + rest.length + 1 + spare.length := by omega
  simp [marshalNameLabel, encodeLabel, Slice.index, Slice.slice, Slice.cap, Slice.mem,
    h1, h2, h3, ok_bind, ok_map, toLabel]

/-! ## One evaluation of the loop condition of `marshalNameLabels` -/

theorem marshalNameLabelsLoop_zero (data : Slice) (fuel : Nat) (labels : List QNameLabel)
    (offset : Nat) (b : Byte) (hb : data.index offset = .ok b) (h0 : b.val = 0) :
    marshalNameLabelsLoop data (fuel + 1) labels offset = .ok (labels, offset) := by
  simp [marshalNameLabelsLoop, hb, ok_bind, h0]
  rfl

theorem marshalNameLabelsLoop_index_fault (data : Slice) (fuel : Nat)
    (labels : List QNameLabel) (offset : Nat) (e : Fault)
    (hb : data.index offset = .error e) :
    marshalNameLabelsLoop data (fuel + 1) labels offset = .error e := by
  simp [marshalNameLabelsLoop, hb, error_bind]

theorem marshalNameLabelsLoop_label (data sub : Slice) (fuel : Nat)
    (labels : List QNameLabel) (offset : Nat) (b : Byte) (label : QNameLabel) (off : Nat)
    (hb : data.index offset = .ok b) (h0 : b.val ≠ 0)
    (hs : data.sliceFrom offset = .ok sub) (hl : marshalNameLabel sub = .ok (label, off)) :
    marshalNameLabelsLoop data (fuel + 1) labels offset
      = marshalNameLabelsLoop data fuel (labels ++ [label]) ((offset + off) % 2 ^ 32) := by
  simp [marshalNameLabelsLoop, hb, ok_bind, h0, hs, hl]

theorem marshalNameLabelsLoop_label_fault (data sub : Slice) (fuel : Nat)
    (labels : List QNameLabel) (offset : Nat) (b : Byte) (e : Fault)
    (hb : data.index offset = .ok b) (h0 : b.val ≠ 0)
    (hs : data.sliceFrom offset = .ok sub) (hl : marshalNameLabel sub = .error e) :
    marshalNameLabelsLoop data (fuel + 1) labels offset = .error e := by
  simp [marshalNameLabelsLoop, hb, ok_bind, h0, hs, hl, error_bind]

theorem encodeLabel_length (l : List Byte) : (encodeLabel l).length = l.length + 1 := by
  simp [encodeLabel]

theorem encodeLabels_length_ge (ls : List (List Byte)) :
    ls.length ≤ (encodeLabels ls).length := by
  induction ls with
  | nil => simp [encodeLabels]
  | cons l ls ih => simp [encodeLabels, encodeLabel_length]; omega

/-- Running the loop over the encodings of labels of 1 to 254 bytes appends
the labels and moves the offset past them. -/
theorem marshalNameLabelsLoop_encodeLabels (tail spare : List Byte) (ls : List (List Byte)) :
    ∀ (pre : List Byte) (acc : List QNameLabel) (fuel : Nat),
      (∀ l ∈ ls, 1 ≤ l.length ∧ l.length ≤ 254) →
      pre.length + (encodeLabels ls).length < 2 ^ 32 →
      marshalNameLabelsLoop ⟨pre ++ (encodeLabels ls ++ tail), spare⟩ (fuel + ls.length) acc
          pre.length
        = marshalNameLabelsLoop ⟨pre ++ (encodeLabels ls ++ tail), spare⟩ fuel
            (acc ++ ls.map toLabel) (pre.length + (encodeLabels ls).length) := by
  induction ls with
  | nil => intro pre acc fuel _ _; simp [encodeLabels]
  | cons l ls ih =>
    intro pre acc fuel hv hlen
    have hl := hv l (List.mem_cons_self _ _)
    have hlen2 : pre.length + (l.length + 1) + (encodeLabels ls).length < 2 ^ 32 := by
      simp only [encodeLabels, List.length_append, encodeLabel_length] at hlen
      omega
    have hmod : l.length % 256 = l.length := Nat.mod_eq_of_lt (by omega)
    have e1 : pre ++ (encodeLabels (l :: ls) ++ tail)
        = pre ++ ((⟨l.length % 256, Nat.mod_lt _ (by decide)⟩ : Byte)
            :: (l ++ (encodeLabels ls ++ tail))) := by
      simp [encodeLabels, encodeLabel]
    have e2 : pre ++ (encodeLabels (l :: ls) ++ tail)
        = pre ++ (encodeLabel l ++ (encodeLabels ls ++ tail)) := by
      simp [encodeLabels]
    have e3 : pre ++ (encodeLabels (l :: ls) ++ tail)
        = (pre ++ encodeLabel l) ++ (encodeLabels ls ++ tail) := by
      simp [encodeLabels]
    have step := marshalNameLabelsLoop_label ⟨pre ++ (encodeLabels (l :: ls) ++ tail), spare⟩
      ⟨encodeLabel l ++ (encodeLabels ls ++ tail), spare⟩ (fuel + ls.length) acc pre.length
      ⟨l.length % 256, Nat.mod_lt _ (by decide)⟩ (toLabel l) (l.length + 1)
      (by rw [e1]; exact Slice.index_append _ _ _ _)
      (by simp only [hmod]; omega)
      (by rw [e2]; exact Slice.sliceFrom_append _ _ _)
      (marshalNameLabel_encodeLabel l _ spare hl.2)
    have hoff : (pre.length + (l.length + 1)) % 2 ^ 32 = (pre ++ encodeLabel l).length := by
      rw [Nat.mod_eq_of_lt (by omega)]
      simp [encodeLabel_length]
    rw [List.length_cons, ← Nat.add_assoc, step, hoff, e3,
      ih (pre ++ encodeLabel l) (acc ++ [toLabel l]) fuel
        (fun x hx => hv x (List.mem_cons_of_mem _ hx))
        (by simp only [List.length_append, encodeLabel_length]; omega)]
    simp [encodeLabels, encodeLabel_length, Nat.add_assoc]

/-- More fuel never changes a result other than running out of fuel. -/
theorem marshalNameLabelsLoop_fuel_mono (data : Slice) (extra : Nat) :
    ∀ (fuel : Nat) (acc : List QNameLabel) (offset : Nat) (r : Except Fault (List QNameLabel × Nat)),
      marshalNameLabelsLoop data fuel acc offset = r → r ≠ .error .noTermination →
      marshalNameLabelsLoop data (fuel + extra) acc offset = r := by
  intro fuel
  induction fuel with
  | zero =>
    intro acc offset r h hr
    simp only [marshalNameLabelsLoop] at h
    exact absurd h.symm hr
  | succ fuel ih =>
    intro acc offset r h hr
    have e : fuel + 1 + extra = (fuel + extra) + 1 := by omega
    rw [e]
    cases hb : data.index offset with
    | error e1 =>
      rw [marshalNameLabelsLoop_index_fault _ _ _ _ _ hb] at h
      rw [marshalNameLabelsLoop_index_fault _ _ _ _ _ hb]
      exact h
    | ok b =>
      by_cases h0 : b.val = 0
      · rw [marshalNameLabelsLoop_zero _ _ _ _ b hb h0] at h
        rw [marshalNameLabelsLoop_zero _ _ _ _ b hb h0]
        exact h
      · cases hs : data.sliceFrom offset with
        | error e2 =>
          have hx : ∀ f, marshalNameLabelsLoop data (f + 1) acc offset = .error e2 := by
            intro f
            simp [marshalNameLabelsLoop, hb, ok_bind, h0, hs, error_bind]
          rw [hx] at h
          rw [hx]
          exact h
        | ok sub =>
          cases hl : marshalNameLabel sub with
          | error e3 =>
            rw [marshalNameLabelsLoop_label_fault _ _ _ _ _ b _ hb h0 hs hl] at h
            rw [marshalNameLabelsLoop_label_fault _ _ _ _ _ b _ hb h0 hs hl]
            exact h
          | ok p =>
            obtain ⟨label, off⟩ := p
            rw [marshalNameLabelsLoop_label _ _ _ _ _ b _ _ hb h0 hs hl] at h
            rw [marshalNameLabelsLoop_label _ _ _ _ _ b _ _ hb h0 hs hl]
            exact ih _ _ _ h hr

/-- On the encoding of labels of 1 to 254 bytes followed by a zero byte,
`marshalNameLabels` returns the labels and the offset OF the zero byte. -/
theorem marshalNameLabels_encodeLabels (ls : List (List Byte)) (rest spare : List Byte)
    (hv : ∀ l ∈ ls, 1 ≤ l.length ∧ l.length ≤ 254)
    (hlen : (encodeLabels ls).length < 2 ^ 32) :
    marshalNameLabels ⟨encodeLabels ls ++ 0 :: rest, spare⟩
      = .ok (ls.map toLabel, (encodeLabels ls).length) := by
  have hge := encodeLabels_length_ge ls
  have hfuel : (Slice.mk (encodeLabels ls ++ 0 :: rest) spare).len + 1
      = ((encodeLabels ls).length - ls.length + rest.length + 1 + 1) + ls.length := by
    simp only [Slice.len, List.length_append, List.length_cons]
    omega
  have h := marshalNameLabelsLoop_encodeLabels (0 :: rest) spare ls [] []
    ((encodeLabels ls).length - ls.length + rest.length + 1 + 1) hv (by simpa using hlen)
  simp only [List.nil_append, List.length_nil, Nat.zero_add] at h
  unfold marshalNameLabels
  rw [hfuel, h]
  refine marshalNameLabelsLoop_zero _ _ _ _ 0 ?_ rfl
  have := Slice.index_append (encodeLabels ls) 0 rest spare
  simpa using this

theorem BigEndian.Uint16_cons (b0 b1 : Byte) (rest spare : List Byte) :
    BigEndian.Uint16 ⟨b0 :: b1 :: rest, spare⟩ = .ok (256 * b0.val + b1.val) := by
  have h0 := b0.isLt
  have h : b1.val < 2 ^ 8 := b1.isLt
  have e : (b1.val ||| (b0.val <<< 8)) % 2 ^ 16 = 256 * b0.val + b1.val := by
    rw [Nat.shiftLeft_eq, Nat.mul_comm, Nat.lor_comm, ← Nat.mul_add_lt_is_or h]
    omega
  simp only [BigEndian.Uint16, Slice.index, List.getElem?_cons_succ, List.getElem?_cons_zero,
    ok_bind, e]
  rfl

theorem Slice.slice_two (s : Slice) (pre : List Byte) (b0 b1 : Byte) (r : List Byte)
    (h : s.mem = pre ++ b0 :: b1 :: r) :
    s.slice pre.length (pre.length + 2) = .ok ⟨[b0, b1], r⟩ := by
  have hcap : pre.length + 2 ≤ s.cap := by
    have := congrArg List.length h
    simp only [Slice.mem, List.length_append, List.length_cons] at this
    simp only [Slice.cap]
    omega
  have e2 : pre ++ b0 :: b1 :: r = (pre ++ [b0, b1]) ++ r := by simp
  have hd : List.drop (pre.length + 2) (pre ++ b0 :: b1 :: r) = r := by
    rw [e2]
    exact List.drop_left' (by simp)
  simp [Slice.slice, hcap, h, hd]

theorem Slice.sliceFrom_zero (s : Slice) : s.sliceFrom 0 = .ok s := by
  simp [Slice.sliceFrom]

/-- What `marshalDnsQuestion` returns on a name of labels of 1 to 254 bytes:
the type is read from the terminator byte and the byte after it, the class
from the two bytes after those. -/
theorem marshalDnsQuestion_encodeLabels (ls : List (List Byte)) (rest spare : List Byte)
    (t1 t2 c1 : Byte) (r : List Byte)
    (hv : ∀ l ∈ ls, 1 ≤ l.length ∧ l.length ≤ 254)
    (hlen : (encodeLabels ls).length + 4 < 2 ^ 32)
    (hmem : rest ++ spare = t1 :: t2 :: c1 :: r) :
    marshalDnsQuestion ⟨encodeLabels ls ++ 0 :: rest, spare⟩
      = .ok (⟨ls.map toLabel, t1.val, 256 * t2.val + c1.val⟩,
          (encodeLabels ls).length + 4, none) := by
  have hn := marshalNameLabels_encodeLabels ls rest spare hv (by omega)
  have m1 : (Slice.mk (encodeLabels ls ++ 0 :: rest) spare).mem
      = encodeLabels ls ++ 0 :: t1 :: (t2 :: c1 :: r) := by
    simp [Slice.mem, hmem]
  have m2 : (Slice.mk (encodeLabels ls ++ 0 :: rest) spare).mem
      = (encodeLabels ls ++ [0, t1]) ++ t2 :: c1 :: r := by
    simp [Slice.mem, hmem]
  have s1 := Slice.slice_two _ _ _ _ _ m1
  have s2 := Slice.slice_two _ _ _ _ _ m2
  have l2 : (encodeLabels ls ++ [0, t1]).length = (encodeLabels ls).length + 2 := by simp
  rw [l2] at s2
  have o1 : (0 + (encodeLabels ls).length) % 2 ^ 32 = (encodeLabels ls).length :=
    by rw [Nat.zero_add]; exact Nat.mod_eq_of_lt (by omega)
  have o2 : ((encodeLabels ls).length + 2) % 2 ^ 32 = (encodeLabels ls).length + 2 :=
    Nat.mod_eq_of_lt (by omega)
  have o3 : ((encodeLabels ls).length + 2 + 2) % 2 ^ 32 = (encodeLabels ls).length + 4 :=
    Nat.mod_eq_of_lt (by omega)
  simp only [marshalDnsQuestion, Slice.sliceFrom_zero, ok_bind, hn, o1, o2, o3, s1, s2,
    BigEndian.Uint16_cons]
  simp
  rfl

/-! ## The header decoder -/

theorem marshalDNSHdr_cons (b0 b1 b2 b3 b4 b5 b6 b7 b8 b9 b10 b11 : Byte)
    (rest spare : List Byte) :
    marshalDNSHdr ⟨b0 :: b1 :: b2 :: b3 :: b4 :: b5 :: b6 :: b7 :: b8 :: b9 :: b10 :: b11 :: rest,
        spare⟩
      = .ok (⟨256 * b0.val + b1.val, (b2.val &&& 0x80) >>> 7, (b3.val &&& 0x78) >>> 3,
          (b2.val &&& 0x04) >>> 2, (b2.val &&& 0x02) >>> 1, (b2.val &&& 0x01) >>> 0,
          (b3.val &&& 0x80) >>> 7, (b3.val &&& 0x70) >>> 4, (b3.val &&& 0x0F) >>> 0,
          256 * b4.val + b5.val, 256 * b6.val + b7.val, 256 * b8.val + b9.val,
          256 * b10.val + b11.val⟩, none) := by
  have s0 := Slice.slice_two ⟨b0 :: b1 :: b2 :: b3 :: b4 :: b5 :: b6 :: b7 :: b8 :: b9 :: b10
    :: b11 :: rest, spare⟩ [] b0 b1 _ rfl
  have s4 := Slice.slice_two ⟨b0 :: b1 :: b2 :: b3 :: b4 :: b5 :: b6 :: b7 :: b8 :: b9 :: b10
    :: b11 :: rest, spare⟩ [b0, b1, b2, b3] b4 b5 _ rfl
  have s6 := Slice.slice_two ⟨b0 :: b1 :: b2 :: b3 :: b4 :: b5 :: b6 :: b7 :: b8 :: b9 :: b10
    :: b11 :: rest, spare⟩ [b0, b1, b2, b3, b4, b5] b6 b7 _ rfl
  have s8 := Slice.slice_two ⟨b0 :: b1 :: b2 :: b3 :: b4 :: b5 :: b6 :: b7 :: b8 :: b9 :: b10
    :: b11 :: rest, spare⟩ [b0, b1, b2, b3, b4, b5, b6, b7] b8 b9 _ rfl
  have s10 := Slice.slice_two ⟨b0 :: b1 :: b2 :: b3 :: b4 :: b5 :: b6 :: b7 :: b8 :: b9 :: b10
    :: b11 :: rest, spare⟩ [b0, b1, b2, b3, b4, b5, b6, b7, b8, b9] b10 b11 _ rfl
  simp only [List.length_nil, List.length_cons, Nat.zero_add, Nat.reduceAdd] at s0 s4 s6 s8 s10
  simp only [marshalDNSHdr, s0, s4, s6, s8, s10, ok_bind, BigEndian.Uint16_cons, Slice.index,
    List.getElem?_cons_succ, List.getElem?_cons_zero]
  rfl

theorem exists_cons_of_succ_le (l : List Byte) (n : Nat) (h : n + 1 ≤ l.length) :
    ∃ b t, l = b :: t ∧ n ≤ t.length := by
  cases l with
  | nil => simp at h
  | cons b t => exact ⟨b, t, rfl, by simpa using h⟩

theorem exists_cons_twelve (l : List Byte) (h : 12 ≤ l.length) :
    ∃ b0 b1 b2 b3 b4 b5 b6 b7 b8 b9 b10 b11 rest,
      l = b0 :: b1 :: b2 :: b3 :: b4 :: b5 :: b6 :: b7 :: b8 :: b9 :: b10 :: b11 :: rest := by
  obtain ⟨b0, l, rfl, h0⟩ := exists_cons_of_succ_le l 11 h
  obtain ⟨b1, l, rfl, h1⟩ := exists_cons_of_succ_le l 10 h0
  obtain ⟨b2, l, rfl, h2⟩ := exists_cons_of_succ_le l 9 h1
  obtain ⟨b3, l, rfl, h3⟩ := exists_cons_of_succ_le l 8 h2
  obtain ⟨b4, l, rfl, h4⟩ := exists_cons_of_succ_le l 7 h3
  obtain ⟨b5, l, rfl, h5⟩ := exists_cons_of_succ_le l 6 h4
  obtain ⟨b6, l, rfl, h6⟩ := exists_cons_of_succ_le l 5 h5
  obtain ⟨b7, l, rfl, h7⟩ := exists_cons_of_succ_le l 4 h6
  obtain ⟨b8, l, rfl, h8⟩ := exists_cons_of_succ_le l 3 h7
  obtain ⟨b9, l, rfl, h9⟩ := exists_cons_of_succ_le l 2 h8
  obtain ⟨b10, l, rfl, h10⟩ := exists_cons_of_succ_le l 1 h9
  obtain ⟨b11, l, rfl, h11⟩ := exists_cons_of_succ_le l 0 h10
  exact ⟨b0, b1, b2, b3, b4, b5, b6, b7, b8, b9, b10, b11, l, rfl⟩

set_option maxRecDepth 100000 in
theorem byte_bit7 (b : Byte) : (b.val &&& 0x80) >>> 7 = b.val / 128 % 2 := by
  revert b; decide

set_option maxRecDepth 100000 in
theorem byte_bit2 (b : Byte) : (b.val &&& 0x04) >>> 2 = b.val / 4 % 2 := by
  revert b; decide

set_option maxRecDepth 100000 in
theorem byte_bit1 (b : Byte) : (b.val &&& 0x02) >>> 1 = b.val / 2 % 2 := by
  revert b; decide

set_option maxRecDepth 100000 in
theorem byte_bit0 (b : Byte) : (b.val &&& 0x01) >>> 0 = b.val % 2 := by
  revert b; decide

set_option maxRecDepth 100000 in
theorem byte_bits64 (b : Byte) : (b.val &&& 0x70) >>> 4 = (b.val >>> 4) &&& 7 := by
  revert b; decide

set_option maxRecDepth 100000 in
theorem byte_bits63 (b : Byte) : (b.val &&& 0x78) >>> 3 = (b.val >>> 3) &&& 0x0F := by
  revert b; decide

/-- On every buffer of at least 12 bytes the `OPCODE` of the decoded header is
bits 6..3 of byte 3. -/
theorem marshalDNSHdr_opcode (s : Slice) (h : 12 ≤ s.len) :
    ∃ hdr, marshalDNSHdr s = .ok (hdr, none) ∧
      hdr.OPCODE = ((s.vis.getD 3 0).val >>> 3) &&& 0x0F := by
  obtain ⟨vis, spare⟩ := s
  obtain ⟨b0, b1, b2, b3, b4, b5, b6, b7, b8, b9, b10, b11, rest, rfl⟩ :=
    exists_cons_twelve vis h
  exact ⟨_, marshalDNSHdr_cons b0 b1 b2 b3 b4 b5 b6 b7 b8 b9 b10 b11 rest spare,
    byte_bits63 b3⟩

/-! ## The question loop and the top-level decoder -/

theorem marshalDnsQuestionsLoop_ok (data sub : Slice) (left : Nat) (qs : List DnsQuestion)
    (offset : Nat) (q : DnsQuestion) (off : Nat)
    (hs : data.sliceFrom offset = .ok sub) (hq : marshalDnsQuestion sub = .ok (q, off, none)) :
    marshalDnsQuestionsLoop data (left + 1) qs offset
      = marshalDnsQuestionsLoop data left (qs ++ [q]) ((offset + off) % 2 ^ 32) := by
  simp [marshalDnsQuestionsLoop, hs, hq, ok_bind]

theorem marshalDnsQuestionsLoop_fault (data sub : Slice) (left : Nat) (qs : List DnsQuestion)
    (offset : Nat) (e : Fault)
    (hs : data.sliceFrom offset = .ok sub) (hq : marshalDnsQuestion sub = .error e) :
    marshalDnsQuestionsLoop data (left + 1) qs offset = .error e := by
  simp [marshalDnsQuestionsLoop, hs, hq, ok_bind, error_bind]

theorem marshalDnsQuestionsLoop_slice_fault (data : Slice) (left : Nat)
    (qs : List DnsQuestion) (offset : Nat) (e : Fault) (hs : data.sliceFrom offset = .error e) :
    marshalDnsQuestionsLoop data (left + 1) qs offset = .error e := by
  simp [marshalDnsQuestionsLoop, hs, error_bind]

theorem MarshalDNS_small_cap (s : Slice) (h : s.cap < 12) :
    MarshalDNS s = .error .sliceBounds := by
  have : ¬ (12 ≤ s.cap) := by omega
  simp [MarshalDNS, Slice.slice, HdrLen, this, error_bind]

/-- How `MarshalDNS` continues after the header has been decoded from the first
twelve bytes of the backing array. -/
theorem MarshalDNS_of_hdr (s : Slice) (H : DnsHeader) (hcap : 12 ≤ s.cap)
    (hH : marshalDNSHdr ⟨s.mem.take 12, s.mem.drop 12⟩ = .ok (H, none)) :
    MarshalDNS s
      = if H.QDCOUNT > 0 then
          s.sliceFrom 12 >>= fun data =>
            marshalDnsQuestions data H.QDCOUNT >>= fun r =>
              pure (⟨H, r.1, [], [], []⟩, r.2.2)
        else pure (⟨H, [], [], [], []⟩, none) := by
  simp only [MarshalDNS, Slice.slice, HdrLen, hcap, Nat.zero_le, and_self, if_true,
    List.drop_zero, Nat.sub_zero, ok_bind, hH, Nat.zero_add, DnsMessage.zero]
  have h12 : (12 : Nat) % 2 ^ 32 = 12 := by decide
  rw [h12]
  by_cases hq : H.QDCOUNT > 0
  · simp only [hq, if_true]
    cases hs : s.sliceFrom 12 with
    | error e => simp [error_bind]
    | ok data =>
      simp only [ok_bind]
      cases hr : marshalDnsQuestions data H.QDCOUNT with
      | error e => simp [error_bind]
      | ok r =>
        obtain ⟨qs, off, err⟩ := r
        cases err <;> rfl
  · simp only [hq, if_false]

theorem marshalDNSHdr_ok (s : Slice) (h : 12 ≤ s.len) :
    ∃ hdr, marshalDNSHdr s = .ok (hdr, none) := by
  obtain ⟨vis, spare⟩ := s
  obtain ⟨b0, b1, b2, b3, b4, b5, b6, b7, b8, b9, b10, b11, rest, rfl⟩ :=
    exists_cons_twelve vis h
  exact ⟨_, marshalDNSHdr_cons b0 b1 b2 b3 b4 b5 b6 b7 b8 b9 b10 b11 rest spare⟩

theorem MarshalDNS_eq (s : Slice) (h : 12 ≤ s.len) :
    ∃ H, marshalDNSHdr s = .ok (H, none) ∧
      MarshalDNS s
        = if H.QDCOUNT > 0 then
            marshalDnsQuestions ⟨s.vis.drop 12, s.spare⟩ H.QDCOUNT >>= fun r =>
              pure (⟨H, r.1, [], [], []⟩, r.2.2)
          else pure (⟨H, [], [], [], []⟩, none) := by
  obtain ⟨vis, spare⟩ := s
  obtain ⟨b0, b1, b2, b3, b4, b5, b6, b7, b8, b9, b10, b11, rest, rfl⟩ :=
    exists_cons_twelve vis h
  refine ⟨_, marshalDNSHdr_cons b0 b1 b2 b3 b4 b5 b6 b7 b8 b9 b10 b11 rest spare, ?_⟩
  have hcap : 12 ≤ (Slice.mk (b0 :: b1 :: b2 :: b3 :: b4 :: b5 :: b6 :: b7 :: b8 :: b9 :: b10
      :: b11 :: rest) spare).cap := by
    simp only [Slice.cap, List.length_cons]; omega
  have hs : (Slice.mk (b0 :: b1 :: b2 :: b3 :: b4 :: b5 :: b6 :: b7 :: b8 :: b9 :: b10
      :: b11 :: rest) spare).sliceFrom 12 = .ok ⟨rest, spare⟩ := by
    simp [Slice.sliceFrom, Slice.len]
  rw [MarshalDNS_of_hdr _ _ hcap
    (marshalDNSHdr_cons b0 b1 b2 b3 b4 b5 b6 b7 b8 b9 b10 b11 [] (rest ++ spare)), hs]
  rfl

/-! ## Truncated names -/

theorem marshalNameLabel_cons (L : Byte) (rest spare : List Byte) :
    marshalNameLabel ⟨L :: rest, spare⟩
      = if 1 ≤ (L.val + 1) % 256 ∧ (L.val + 1) % 256 ≤ 1 + rest.length + spare.length then
          .ok (⟨L.val, (rest ++ spare).take ((L.val + 1) % 256 - 1)⟩, (L.val + 1) % 256)
        else .error .sliceBounds := by
  have e : rest.length + 1 + spare.length = 1 + rest.length + spare.length := by omega
  simp only [marshalNameLabel, Slice.index, List.getElem?_cons_zero, ok_bind, Slice.slice,
    Slice.cap, Slice.mem, List.length_cons, e]
  norm_num
  split
  · rfl
  · rfl

theorem marshalNameLabel_cons_ok (L : Byte) (rest spare : List Byte) (h1 : L.val ≤ 254)
    (h2 : L.val ≤ rest.length + spare.length) :
    marshalNameLabel ⟨L :: rest, spare⟩
      = .ok (⟨L.val, (rest ++ spare).take L.val⟩, L.val + 1) := by
  have hm : (L.val + 1) % 256 = L.val + 1 := Nat.mod_eq_of_lt (by omega)
  have hc : 1 ≤ L.val + 1 ∧ L.val + 1 ≤ 1 + rest.length + spare.length := by omega
  rw [marshalNameLabel_cons, hm, if_pos hc]
  simp

theorem marshalNameLabel_cons_fault (L : Byte) (rest spare : List Byte)
    (h : L.val = 255 ∨ rest.length + spare.length < L.val) :
    marshalNameLabel ⟨L :: rest, spare⟩ = .error .sliceBounds := by
  have hL := L.isLt
  have hc : ¬ (1 ≤ (L.val + 1) % 256 ∧ (L.val + 1) % 256 ≤ 1 + rest.length + spare.length) := by
    rcases h with h | h
    · rw [h]; simp
    · by_cases h5 : L.val = 255
      · rw [h5]; simp
      · rw [Nat.mod_eq_of_lt (by omega)]; omega
  rw [marshalNameLabel_cons, if_neg hc]

/-- After complete labels of 1 to 254 bytes, a buffer that ends, or whose next
length byte announces more bytes than remain, makes `marshalNameLabels` panic. -/
theorem marshalNameLabels_truncated (ls : List (List Byte)) (tail spare : List Byte)
    (hv : ∀ l ∈ ls, 1 ≤ l.length ∧ l.length ≤ 254)
    (hcap : (Slice.mk (encodeLabels ls ++ tail) spare).cap < 2 ^ 32)
    (ht : tail = [] ∨ ∃ L rest, tail = L :: rest ∧ rest.length < L.val) :
    marshalNameLabels ⟨encodeLabels ls ++ tail, spare⟩ = .error .indexOutOfRange ∨
    marshalNameLabels ⟨encodeLabels ls ++ tail, spare⟩ = .error .sliceBounds := by
  have hge := encodeLabels_length_ge ls
  simp only [Slice.cap, List.length_append] at hcap
  have hstep := fun fuel => marshalNameLabelsLoop_encodeLabels tail spare ls [] [] fuel hv
    (by simp only [List.length_nil]; omega)
  simp only [List.nil_append, List.length_nil, Nat.zero_add] at hstep
  unfold marshalNameLabels
  rcases ht with rfl | ⟨L, rest, rfl, hL⟩
  · left
    have hfuel : (Slice.mk (encodeLabels ls ++ []) spare).len + 1
        = ((encodeLabels ls).length - ls.length + 1) + ls.length := by
      simp only [Slice.len, List.length_append, List.length_nil]; omega
    rw [hfuel, hstep]
    exact marshalNameLabelsLoop_index_fault _ _ _ _ _
      (Slice.index_of_le _ _ (by simp [Slice.len]))
  · have hfuel : (Slice.mk (encodeLabels ls ++ L :: rest) spare).len + 1
        = ((encodeLabels ls).length - ls.length + rest.length + 1 + 1) + ls.length := by
      simp only [Slice.len, List.length_append, List.length_cons]; omega
    have hidx := Slice.index_append (encodeLabels ls) L rest spare
    have hsub := Slice.sliceFrom_append (encodeLabels ls) (L :: rest) spare
    have hne : L.val ≠ 0 := by omega
    rw [hfuel, hstep]
    by_cases hok : L.val ≤ 254 ∧ L.val ≤ rest.length + spare.length
    · left
      rw [marshalNameLabelsLoop_label _ _ _ _ _ L _ _ hidx hne hsub
        (marshalNameLabel_cons_ok L rest spare hok.1 hok.2)]
      simp only [List.length_cons] at hcap
      rw [Nat.mod_eq_of_lt (by omega)]
      have hout : (Slice.mk (encodeLabels ls ++ L :: rest) spare).len
          ≤ (encodeLabels ls).length + (L.val + 1) := by
        simp only [Slice.len, List.length_append, List.length_cons]
        omega
      exact marshalNameLabelsLoop_index_fault _ _ _ _ _ (Slice.index_of_le _ _ hout)
    · right
      have hL2 := L.isLt
      exact marshalNameLabelsLoop_label_fault _ _ _ _ _ L _ hidx hne hsub
        (marshalNameLabel_cons_fault L rest spare (by omega))

theorem marshalDnsQuestion_name_fault (s : Slice) (e : Fault)
    (h : marshalNameLabels s = .error e) : marshalDnsQuestion s = .error e := by
  simp [marshalDnsQuestion, Slice.sliceFrom_zero, ok_bind, h, error_bind]

theorem marshalDnsQuestions_first_fault (s : Slice) (num : Nat) (e : Fault) (hn : 0 < num)
    (h : marshalDnsQuestion s = .error e) : marshalDnsQuestions s num = .error e := by
  obtain ⟨k, rfl⟩ : ∃ k, num = k + 1 := ⟨num - 1, by omega⟩
  exact marshalDnsQuestionsLoop_fault s s k [] 0 e (Slice.sliceFrom_zero s) h

theorem MarshalDNS_first_question_fault (s : Slice) (H : DnsHeader) (e : Fault)
    (h12 : 12 ≤ s.len) (hH : marshalDNSHdr s = .ok (H, none)) (hq : 0 < H.QDCOUNT)
    (h : marshalDnsQuestion ⟨s.vis.drop 12, s.spare⟩ = .error e) :
    MarshalDNS s = .error e := by
  obtain ⟨H2, hH2, heq⟩ := MarshalDNS_eq s h12
  rw [hH] at hH2
  cases hH2
  rw [heq, if_pos hq, marshalDnsQuestions_first_fault _ _ e hq h]
  rfl

/-- The two-question datagram makes `MarshalDNS` panic whatever the spare
capacity: the second question is decoded from offset 6 of the question section,
one byte before its first byte. -/
theorem MarshalDNS_twoQuestionQuery_panics (spare : List Byte)
    (hsp : spare.length < 2 ^ 31) : Panics (MarshalDNS ⟨twoQuestionQuery, spare⟩) := by
  have hq1 : marshalDnsQuestion ⟨twoQuestionQuery.drop 12, spare⟩
      = .ok (⟨[⟨1, [0x61]⟩], 0, 256⟩, 6, none) :=
    marshalDnsQuestion_encodeLabels [[0x61]]
      [0x00, 0x01, 0x00, 0x01, 0x01, 0x62, 0x00, 0x00, 0x01, 0x00, 0x01] spare 0x00 0x01 0x00
      (0x01 :: 0x01 :: 0x62 :: 0x00 :: 0x00 :: 0x01 :: 0x00 :: 0x01 :: spare)
      (by decide) (by decide) rfl
  have hs6 : (Slice.mk (twoQuestionQuery.drop 12) spare).sliceFrom 6
      = .ok ⟨[0x01, 0x01, 0x62, 0x00, 0x00, 0x01, 0x00, 0x01], spare⟩ := by
    simp [Slice.sliceFrom, Slice.len, twoQuestionQuery]
  have hn2 := marshalNameLabels_truncated [[0x01]] [0x62, 0x00, 0x00, 0x01, 0x00, 0x01] spare
    (by decide)
    (by simp only [Slice.cap, encodeLabels, encodeLabel, List.length_append, List.length_cons,
          List.length_nil]; omega)
    (Or.inr ⟨0x62, [0x00, 0x00, 0x01, 0x00, 0x01], rfl, by decide⟩)
  have hloop : ∀ e, marshalNameLabels
        ⟨[0x01, 0x01, 0x62, 0x00, 0x00, 0x01, 0x00, 0x01], spare⟩ = .error e →
      MarshalDNS ⟨twoQuestionQuery, spare⟩ = .error e := by
    intro e he
    have h26 : 12 ≤ (Slice.mk twoQuestionQuery spare).len := by
      simp [Slice.len, twoQuestionQuery]
    obtain ⟨H, hH, heq⟩ := MarshalDNS_eq ⟨twoQuestionQuery, spare⟩ h26
    have hH2 : marshalDNSHdr ⟨twoQuestionQuery, spare⟩
        = .ok (⟨7, 0, 0, 0, 0, 1, 0, 0, 0, 2, 0, 0, 0⟩, none) :=
      marshalDNSHdr_cons 0x00 0x07 0x01 0x00 0x00 0x02 0x00 0x00 0x00 0x00 0x00 0x00 _ spare
    rw [hH2] at hH
    cases hH
    have hqs : marshalDnsQuestions ⟨twoQuestionQuery.drop 12, spare⟩ 2 = .error e := by
      unfold marshalDnsQuestions
      rw [marshalDnsQuestionsLoop_ok _ _ 1 [] 0 _ _ (Slice.sliceFrom_zero _) hq1]
      exact marshalDnsQuestionsLoop_fault _ _ 0 _ _ e hs6
        (marshalDnsQuestion_name_fault _ e he)
    rw [heq]
    simp only [gt_iff_lt, Nat.ofNat_pos, if_true]
    rw [hqs]
    rfl
  rcases hn2 with h | h
  · exact Or.inl (hloop _ h)
  · exact Or.inr (hloop _ h)

/-! ## Inversion of one pass through the loop of `marshalNameLabels` -/

theorem Slice.index_ok_iff (s : Slice) (i : Nat) (b : Byte) (h : s.index i = .ok b) :
    i < s.len ∧ s.vis.drop i = b :: s.vis.drop (i + 1) := by
  unfold Slice.index at h
  cases hg : s.vis[i]? with
  | none => rw [hg] at h; cases h
  | some c =>
    rw [hg] at h
    cases h
    obtain ⟨hlt, hc⟩ := List.getElem?_eq_some.mp hg
    exact ⟨hlt, by rw [List.drop_eq_getElem_cons hlt, hc]⟩

theorem Slice.index_error (s : Slice) (i : Nat) (e : Fault) (h : s.index i = .error e) :
    e = .indexOutOfRange := by
  unfold Slice.index at h
  cases hg : s.vis[i]? with
  | none => rw [hg] at h; cases h; rfl
  | some c => rw [hg] at h; cases h

/-- What one evaluation of the loop condition at offset `o` leads to: a panic,
the return at a zero byte, or a completed body that appends a label of
`1 ≤ Length ≤ 254` bytes and moves the offset by `Length + 1` inside the
capacity. -/
theorem marshalNameLabelsLoop_step (data : Slice) (fuel : Nat) (acc : List QNameLabel)
    (o : Nat) :
    (∃ e, e ≠ Fault.noTermination ∧
      marshalNameLabelsLoop data (fuel + 1) acc o = .error e) ∨
    (o < data.len ∧ marshalNameLabelsLoop data (fuel + 1) acc o = .ok (acc, o)) ∨
    (∃ label : QNameLabel, o < data.len ∧ 1 ≤ label.Length ∧ label.Length ≤ 254 ∧
      label.Data.length = label.Length ∧ o + (label.Length + 1) ≤ data.cap ∧
      marshalNameLabelsLoop data (fuel + 1) acc o
        = marshalNameLabelsLoop data fuel (acc ++ [label])
            ((o + (label.Length + 1)) % 2 ^ 32)) := by
  cases hb : data.index o with
  | error e =>
    left
    refine ⟨e, ?_, marshalNameLabelsLoop_index_fault _ _ _ _ _ hb⟩
    rw [Slice.index_error _ _ _ hb]
    decide
  | ok b =>
    obtain ⟨hlt, hdrop⟩ := Slice.index_ok_iff _ _ _ hb
    by_cases h0 : b.val = 0
    · exact Or.inr (Or.inl ⟨hlt, marshalNameLabelsLoop_zero _ _ _ _ b hb h0⟩)
    · have hs : data.sliceFrom o = .ok ⟨b :: data.vis.drop (o + 1), data.spare⟩ := by
        simp only [Slice.sliceFrom, if_pos (Nat.le_of_lt hlt), hdrop]
      have hlen : (data.vis.drop (o + 1)).length = data.len - (o + 1) := by
        simp [Slice.len]
      have hb2 := b.isLt
      by_cases hok : b.val ≤ 254 ∧ b.val ≤ (data.vis.drop (o + 1)).length + data.spare.length
      · right; right
        refine ⟨⟨b.val, ((data.vis.drop (o + 1)) ++ data.spare).take b.val⟩, hlt,
          Nat.pos_of_ne_zero h0, hok.1, ?_, ?_, ?_⟩
        · show (((data.vis.drop (o + 1)) ++ data.spare).take b.val).length = b.val
          simp only [List.length_take, List.length_append]
          omega
        · show o + (b.val + 1) ≤ data.cap
          simp only [Slice.cap]
          simp only [Slice.len] at hlen hlt
          omega
        · exact marshalNameLabelsLoop_label _ _ _ _ _ b _ _ hb h0 hs
            (marshalNameLabel_cons_ok b _ _ hok.1 hok.2)
      · left
        refine ⟨.sliceBounds, by decide, ?_⟩
        exact marshalNameLabelsLoop_label_fault _ _ _ _ _ b _ hb h0 hs
          (marshalNameLabel_cons_fault b _ _ (by omega))

/-! ## Termination and invariants of the loop of `marshalNameLabels` -/

/-- With a capacity below `2 ^ 32` the offset cannot wrap, every completed body
moves it forward, and `len - offset + 1` evaluations of the condition are
enough for the loop to return or panic. -/
theorem marshalNameLabelsLoop_ends (data : Slice) (hcap : data.cap < 2 ^ 32) :
    ∀ (fuel : Nat) (acc : List QNameLabel) (o : Nat), data.len - o + 1 ≤ fuel →
      marshalNameLabelsLoop data fuel acc o ≠ .error .noTermination := by
  intro fuel
  induction fuel with
  | zero => intro acc o h; omega
  | succ fuel ih =>
    intro acc o h
    rcases marshalNameLabelsLoop_step data fuel acc o with
      ⟨e, he, hr⟩ | ⟨_, hr⟩ | ⟨label, hlt, h1, _, _, hc, hr⟩
    · rw [hr]; intro hx; cases hx; exact he rfl
    · rw [hr]; intro hx; cases hx
    · rw [hr, Nat.mod_eq_of_lt (by omega)]
      exact ih _ _ (by omega)

/-- With a capacity below `2 ^ 32` the body completes at most `cap / 2` times:
`(cap - offset) / 2 + 1` evaluations of the condition are enough. -/
theorem marshalNameLabelsLoop_ends_cap (data : Slice) (hcap : data.cap < 2 ^ 32) :
    ∀ (fuel : Nat) (acc : List QNameLabel) (o : Nat), o ≤ data.cap →
      data.cap - o + 1 ≤ 2 * fuel →
      marshalNameLabelsLoop data fuel acc o ≠ .error .noTermination := by
  intro fuel
  induction fuel with
  | zero => intro acc o _ h; omega
  | succ fuel ih =>
    intro acc o ho h
    rcases marshalNameLabelsLoop_step data fuel acc o with
      ⟨e, he, hr⟩ | ⟨_, hr⟩ | ⟨label, hlt, h1, _, _, hc, hr⟩
    · rw [hr]; intro hx; cases hx; exact he rfl
    · rw [hr]; intro hx; cases hx
    · rw [hr, Nat.mod_eq_of_lt (by omega)]
      exact ih _ _ hc (by omega)

/-- With a capacity below `2 ^ 32` a body only completes at an offset inside
the length and moves it by at least 2, so it completes at most
`(len - offset + 1) / 2` times, whatever the spare capacity:
`(len - offset + 1) / 2 + 1` evaluations of the condition are enough. -/
theorem marshalNameLabelsLoop_ends_len (data : Slice) (hcap : data.cap < 2 ^ 32) :
    ∀ (fuel : Nat) (acc : List QNameLabel) (o : Nat), data.len - o + 2 ≤ 2 * fuel →
      marshalNameLabelsLoop data fuel acc o ≠ .error .noTermination := by
  intro fuel
  induction fuel with
  | zero => intro acc o h; omega
  | succ fuel ih =>
    intro acc o h
    rcases marshalNameLabelsLoop_step data fuel acc o with
      ⟨e, he, hr⟩ | ⟨_, hr⟩ | ⟨label, hlt, h1, _, _, hc, hr⟩
    · rw [hr]; intro hx; cases hx; exact he rfl
    · rw [hr]; intro hx; cases hx
    · rw [hr, Nat.mod_eq_of_lt (by omega)]
      exact ih _ _ (by omega)

/-- Every label appended by the loop has `1 ≤ Length ≤ 254` and exactly
`Length` bytes of data. -/
theorem marshalNameLabelsLoop_labels (data : Slice) :
    ∀ (fuel : Nat) (acc : List QNameLabel) (o : Nat) (labels : List QNameLabel) (n : Nat),
      marshalNameLabelsLoop data fuel acc o = .ok (labels, n) →
      (∀ l ∈ acc, 1 ≤ l.Length ∧ l.Length ≤ 254 ∧ l.Data.length = l.Length) →
      ∀ l ∈ labels, 1 ≤ l.Length ∧ l.Length ≤ 254 ∧ l.Data.length = l.Length := by
  intro fuel
  induction fuel with
  | zero => intro acc o labels n h; simp [marshalNameLabelsLoop] at h
  | succ fuel ih =>
    intro acc o labels n h hacc
    rcases marshalNameLabelsLoop_step data fuel acc o with
      ⟨e, _, hr⟩ | ⟨_, hr⟩ | ⟨label, _, h1, h2, h3, _, hr⟩
    · rw [hr] at h; cases h
    · rw [hr] at h; cases h; exact hacc
    · rw [hr] at h
      refine ih _ _ _ _ h ?_
      intro l hl
      rcases List.mem_append.mp hl with hl | hl
      · exact hacc l hl
      · rw [List.mem_singleton.mp hl]; exact ⟨h1, h2, h3⟩

/-- The offset returned by the loop is that of a zero byte inside the buffer,
and below `2 ^ 32` if the loop was entered below `2 ^ 32`. -/
theorem marshalNameLabelsLoop_offset (data : Slice) :
    ∀ (fuel : Nat) (acc : List QNameLabel) (o : Nat) (labels : List QNameLabel) (n : Nat),
      marshalNameLabelsLoop data fuel acc o = .ok (labels, n) → o < 2 ^ 32 →
      n < data.len ∧ n < 2 ^ 32 := by
  intro fuel
  induction fuel with
  | zero => intro acc o labels n h; simp [marshalNameLabelsLoop] at h
  | succ fuel ih =>
    intro acc o labels n h ho
    rcases marshalNameLabelsLoop_step data fuel acc o with
      ⟨e, _, hr⟩ | ⟨hlt, hr⟩ | ⟨label, _, _, _, _, _, hr⟩
    · rw [hr] at h; cases h
    · rw [hr] at h; cases h; exact ⟨hlt, ho⟩
    · rw [hr] at h
      exact ih _ _ _ _ h (Nat.mod_lt _ (by decide))

/-- With a capacity below `2 ^ 32`, every label accounts for at least two bytes
before the returned offset. -/
theorem marshalNameLabelsLoop_count (data : Slice) (hcap : data.cap < 2 ^ 32) :
    ∀ (fuel : Nat) (acc : List QNameLabel) (o : Nat) (labels : List QNameLabel) (n : Nat),
      marshalNameLabelsLoop data fuel acc o = .ok (labels, n) → 2 * acc.length ≤ o →
      2 * labels.length ≤ n := by
  intro fuel
  induction fuel with
  | zero => intro acc o labels n h; simp [marshalNameLabelsLoop] at h
  | succ fuel ih =>
    intro acc o labels n h ho
    rcases marshalNameLabelsLoop_step data fuel acc o with
      ⟨e, _, hr⟩ | ⟨_, hr⟩ | ⟨label, _, h1, _, _, hc, hr⟩
    · rw [hr] at h; cases h
    · rw [hr] at h; cases h; exact ho
    · rw [hr, Nat.mod_eq_of_lt (by omega)] at h
      refine ih _ _ _ _ h ?_
      simp only [List.length_append, List.length_singleton]
      omega

theorem marshalNameLabels_ends (s : Slice) (hcap : s.cap < 2 ^ 32) :
    marshalNameLabels s ≠ .error .noTermination :=
  marshalNameLabelsLoop_ends s hcap _ _ _ (by omega)

/-! ## Inversion of `marshalDnsQuestion` -/

theorem Slice.slice_ok_bounds (s x : Slice) (lo hi : Nat) (h : s.slice lo hi = .ok x) :
    lo ≤ hi ∧ hi ≤ s.cap := by
  unfold Slice.slice at h
  by_cases hc : lo ≤ hi ∧ hi ≤ s.cap
  · exact hc
  · rw [if_neg hc] at h; cases h

theorem Slice.slice_error (s : Slice) (lo hi : Nat) (e : Fault) (h : s.slice lo hi = .error e) :
    e = .sliceBounds := by
  unfold Slice.slice at h
  by_cases hc : lo ≤ hi ∧ hi ≤ s.cap
  · rw [if_pos hc] at h; cases h
  · rw [if_neg hc] at h; cases h; rfl

theorem Slice.sliceFrom_error (s : Slice) (lo : Nat) (e : Fault)
    (h : s.sliceFrom lo = .error e) : e = .sliceBounds := by
  unfold Slice.sliceFrom at h
  by_cases hc : lo ≤ s.len
  · rw [if_pos hc] at h; cases h
  · rw [if_neg hc] at h; cases h; rfl

theorem BigEndian.Uint16_error (b : Slice) (e : Fault) (h : BigEndian.Uint16 b = .error e) :
    e = .indexOutOfRange := by
  unfold BigEndian.Uint16 at h
  cases h1 : b.index 1 with
  | error e1 =>
    rw [h1] at h
    simp only [error_bind] at h
    cases h
    exact Slice.index_error _ _ _ h1
  | ok b1 =>
    rw [h1] at h
    simp only [ok_bind] at h
    cases h0 : b.index 0 with
    | error e0 =>
      rw [h0] at h
      simp only [error_bind] at h
      cases h
      exact Slice.index_error _ _ _ h0
    | ok b0 =>
      rw [h0] at h
      simp only [ok_bind] at h
      cases h

/-- A slice `data[lo:lo+2]` that exists has two elements, so reading a 16-bit
value from it cannot panic. -/
theorem BigEndian.Uint16_slice_ok (s b : Slice) (lo : Nat) (h : s.slice lo (lo + 2) = .ok b) :
    ∃ v, BigEndian.Uint16 b = .ok v := by
  have hb := Slice.slice_ok_bounds _ _ _ _ h
  unfold Slice.slice at h
  rw [if_pos hb] at h
  cases h
  have hlen : ((s.mem.drop lo).take (lo + 2 - lo)).length = 2 := by
    have := hb.2
    simp only [Slice.cap] at this
    simp only [Slice.mem, List.length_take, List.length_drop, List.length_append]
    omega
  match hv : (s.mem.drop lo).take (lo + 2 - lo), hlen with
  | [x, y], _ => exact ⟨_, BigEndian.Uint16_cons x y [] _⟩

/-- The shape of every run of `marshalDnsQuestion`: the name is decoded first;
if that returns `(labels, off)`, the two fields are sliced at `off` and
`off + 2`, and a returned question has those labels, the count `off + 4` (inside
the capacity) and a nil error. -/
theorem marshalDnsQuestion_cases (s : Slice) :
    (∃ e, marshalNameLabels s = .error e ∧ marshalDnsQuestion s = .error e) ∨
    (∃ labels off, marshalNameLabels s = .ok (labels, off) ∧
      ((marshalDnsQuestion s = .error .sliceBounds ∧
          (s.cap < off + 4 ∨ 2 ^ 32 ≤ off + 4)) ∨
       (∃ t c, marshalDnsQuestion s = .ok (⟨labels, t, c⟩, off + 4, none) ∧
          off + 4 ≤ s.cap))) := by
  cases hn : marshalNameLabels s with
  | error e => exact Or.inl ⟨e, rfl, marshalDnsQuestion_name_fault s e hn⟩
  | ok p =>
    obtain ⟨labels, off⟩ := p
    right
    refine ⟨labels, off, rfl, ?_⟩
    have hoff : off < 2 ^ 32 := (marshalNameLabelsLoop_offset s _ _ _ _ _ hn (by decide)).2
    have o1 : (0 + off) % 2 ^ 32 = off := by rw [Nat.zero_add]; exact Nat.mod_eq_of_lt hoff
    have hq : marshalDnsQuestion s
        = (s.slice off ((off + 2) % 2 ^ 32) >>= fun b1 =>
            BigEndian.Uint16 b1 >>= fun t =>
              s.slice ((off + 2) % 2 ^ 32) (((off + 2) % 2 ^ 32 + 2) % 2 ^ 32) >>= fun b2 =>
                BigEndian.Uint16 b2 >>= fun c =>
                  pure (⟨labels, t, c⟩, ((off + 2) % 2 ^ 32 + 2) % 2 ^ 32, none)) := by
      simp only [marshalDnsQuestion, Slice.sliceFrom_zero, ok_bind, hn, o1]
    rw [hq]
    cases h1 : s.slice off ((off + 2) % 2 ^ 32) with
    | error e1 =>
      left
      rw [Slice.slice_error _ _ _ _ h1]
      refine ⟨rfl, ?_⟩
      unfold Slice.slice at h1
      by_cases hc : off ≤ (off + 2) % 2 ^ 32 ∧ (off + 2) % 2 ^ 32 ≤ s.cap
      · rw [if_pos hc] at h1; cases h1
      · by_cases hw : off + 2 < 2 ^ 32
        · rw [Nat.mod_eq_of_lt hw] at hc; omega
        · omega
    | ok b1 =>
      have hb1 := Slice.slice_ok_bounds _ _ _ _ h1
      have e2 : (off + 2) % 2 ^ 32 = off + 2 := by
        by_cases hw : off + 2 < 2 ^ 32
        · exact Nat.mod_eq_of_lt hw
        · have : (off + 2) % 2 ^ 32 = off + 2 - 2 ^ 32 := by omega
          omega
      rw [e2] at hb1 h1 ⊢
      simp only [ok_bind]
      obtain ⟨t, ht⟩ := BigEndian.Uint16_slice_ok _ _ _ h1
      rw [ht]
      · simp only [ok_bind]
        cases h2 : s.slice (off + 2) ((off + 2 + 2) % 2 ^ 32) with
        | error e4 =>
          left
          rw [Slice.slice_error _ _ _ _ h2]
          refine ⟨rfl, ?_⟩
          unfold Slice.slice at h2
          by_cases hc : off + 2 ≤ (off + 2 + 2) % 2 ^ 32 ∧ (off + 2 + 2) % 2 ^ 32 ≤ s.cap
          · rw [if_pos hc] at h2; cases h2
          · by_cases hw : off + 2 + 2 < 2 ^ 32
            · rw [Nat.mod_eq_of_lt hw] at hc; omega
            · omega
        | ok b2 =>
          have hb2 := Slice.slice_ok_bounds _ _ _ _ h2
          have e4 : (off + 2 + 2) % 2 ^ 32 = off + 4 := by
            by_cases hw : off + 2 + 2 < 2 ^ 32
            · rw [Nat.mod_eq_of_lt hw]
            · have : (off + 2 + 2) % 2 ^ 32 = off + 2 + 2 - 2 ^ 32 := by omega
              omega
          rw [e4] at hb2 h2 ⊢
          simp only [ok_bind]
          obtain ⟨c, hc⟩ := BigEndian.Uint16_slice_ok _ _ _ h2
          rw [hc]
          right
          exact ⟨t, c, rfl, hb2.2⟩

/-! ## Invariants of the question loop and inversion of `MarshalDNS` -/

/-- Every run of the question loop that returns has a nil error, has appended
exactly one question per iteration, and every appended question is one
returned by `marshalDnsQuestion` on some slice (so it satisfies every `P` that
all such questions satisfy). -/
theorem marshalDnsQuestionsLoop_inv (data : Slice) (P : DnsQuestion → Prop)
    (hP : ∀ sub labels off t c, marshalNameLabels sub = .ok (labels, off) →
      P ⟨labels, t, c⟩) :
    ∀ (k : Nat) (qs : List DnsQuestion) (o : Nat) (out : List DnsQuestion) (n : Nat)
      (err : Option DecodeError),
      marshalDnsQuestionsLoop data k qs o = .ok (out, n, err) → (∀ q ∈ qs, P q) →
      err = none ∧ out.length = qs.length + k ∧ ∀ q ∈ out, P q := by
  intro k
  induction k with
  | zero =>
    intro qs o out n err h hqs
    simp only [marshalDnsQuestionsLoop] at h
    cases h
    exact ⟨rfl, rfl, hqs⟩
  | succ k ih =>
    intro qs o out n err h hqs
    cases hs : data.sliceFrom o with
    | error e => rw [marshalDnsQuestionsLoop_slice_fault _ _ _ _ e hs] at h; cases h
    | ok sub =>
      rcases marshalDnsQuestion_cases sub with
        ⟨e, _, hq⟩ | ⟨labels, off, hn, ⟨hq, _⟩ | ⟨t, c, hq, _⟩⟩
      · rw [marshalDnsQuestionsLoop_fault _ _ _ _ _ e hs hq] at h; cases h
      · rw [marshalDnsQuestionsLoop_fault _ _ _ _ _ _ hs hq] at h; cases h
      · rw [marshalDnsQuestionsLoop_ok _ _ _ _ _ _ _ hs hq] at h
        obtain ⟨h1, h2, h3⟩ := ih _ _ _ _ _ h (by
          intro q hq2
          rcases List.mem_append.mp hq2 with hq2 | hq2
          · exact hqs q hq2
          · rw [List.mem_singleton.mp hq2]; exact hP sub labels off t c hn)
        refine ⟨h1, ?_, h3⟩
        rw [h2, List.length_append, List.length_singleton]
        omega

theorem marshalDnsQuestion_ends (s : Slice) (hcap : s.cap < 2 ^ 32) :
    marshalDnsQuestion s ≠ .error .noTermination := by
  rcases marshalDnsQuestion_cases s with
    ⟨e, hn, hq⟩ | ⟨labels, off, _, ⟨hq, _⟩ | ⟨t, c, hq, _⟩⟩
  · rw [hq]
    intro hx
    cases hx
    exact marshalNameLabels_ends s hcap hn
  · rw [hq]; intro hx; cases hx
  · rw [hq]; intro hx; cases hx

theorem marshalDnsQuestionsLoop_ends (data : Slice) (hcap : data.cap < 2 ^ 32) :
    ∀ (k : Nat) (qs : List DnsQuestion) (o : Nat),
      marshalDnsQuestionsLoop data k qs o ≠ .error .noTermination := by
  intro k
  induction k with
  | zero => intro qs o h; simp only [marshalDnsQuestionsLoop] at h; cases h
  | succ k ih =>
    intro qs o
    cases hs : data.sliceFrom o with
    | error e =>
      rw [marshalDnsQuestionsLoop_slice_fault _ _ _ _ e hs, Slice.sliceFrom_error _ _ _ hs]
      intro hx; cases hx
    | ok sub =>
      have hsub : sub.cap < 2 ^ 32 := by
        unfold Slice.sliceFrom at hs
        by_cases hc : o ≤ data.len
        · rw [if_pos hc] at hs
          cases hs
          simp only [Slice.cap, List.length_drop] at hcap ⊢
          omega
        · rw [if_neg hc] at hs; cases hs
      cases hq : marshalDnsQuestion sub with
      | error e =>
        rw [marshalDnsQuestionsLoop_fault _ _ _ _ _ e hs hq]
        intro hx
        cases hx
        exact marshalDnsQuestion_ends sub hsub hq
      | ok r =>
        obtain ⟨q, off, err⟩ := r
        rcases marshalDnsQuestion_cases sub with
          ⟨e, _, hq2⟩ | ⟨labels, off2, _, ⟨hq2, _⟩ | ⟨t, c, hq2, _⟩⟩
        · rw [hq] at hq2; cases hq2
        · rw [hq] at hq2; cases hq2
        · rw [marshalDnsQuestionsLoop_ok _ _ _ _ _ _ _ hs hq2]
          exact ih _ _

/-- What a returned message is made of: the header decoded from the first 12
bytes of the backing array, no records, and either no question (when
`QDCOUNT` is 0) or the questions that `marshalDnsQuestions` returns on
`data[12:]`. -/
theorem MarshalDNS_ok_inv (s : Slice) (m : DnsMessage) (err : Option DecodeError)
    (h : MarshalDNS s = .ok (m, err)) :
    12 ≤ s.cap ∧ marshalDNSHdr ⟨s.mem.take 12, s.mem.drop 12⟩ = .ok (m.Hdr, none) ∧
    m.Answers = [] ∧ m.Authorities = [] ∧ m.Additionals = [] ∧
    ((m.Hdr.QDCOUNT = 0 ∧ m.Questions = [] ∧ err = none) ∨
     (0 < m.Hdr.QDCOUNT ∧ 12 ≤ s.len ∧
      ∃ n, marshalDnsQuestions ⟨s.vis.drop 12, s.spare⟩ m.Hdr.QDCOUNT
        = .ok (m.Questions, n, err))) := by
  by_cases hcap : 12 ≤ s.cap
  · have hl : 12 ≤ (Slice.mk (s.mem.take 12) (s.mem.drop 12)).len := by
      simp only [Slice.len, Slice.mem, List.length_take, List.length_append]
      simp only [Slice.cap] at hcap
      omega
    obtain ⟨H, hH⟩ := marshalDNSHdr_ok _ hl
    rw [MarshalDNS_of_hdr s H hcap hH] at h
    by_cases hq : H.QDCOUNT > 0
    · rw [if_pos hq] at h
      cases hs : s.sliceFrom 12 with
      | error e => rw [hs] at h; cases h
      | ok data =>
        rw [hs] at h
        simp only [ok_bind] at h
        have hlen : 12 ≤ s.len ∧ data = ⟨s.vis.drop 12, s.spare⟩ := by
          unfold Slice.sliceFrom at hs
          by_cases hc : 12 ≤ s.len
          · rw [if_pos hc] at hs; cases hs; exact ⟨hc, rfl⟩
          · rw [if_neg hc] at hs; cases hs
        cases hr : marshalDnsQuestions data H.QDCOUNT with
        | error e => rw [hr] at h; cases h
        | ok r =>
          rw [hr] at h
          simp only [ok_bind] at h
          cases h
          obtain ⟨qs, n, err2⟩ := r
          rw [hlen.2] at hr
          exact ⟨hcap, hH, rfl, rfl, rfl, Or.inr ⟨hq, hlen.1, n, hr⟩⟩
    · rw [if_neg hq] at h
      cases h
      exact ⟨hcap, hH, rfl, rfl, rfl, Or.inl ⟨Nat.eq_zero_of_not_pos hq, rfl, rfl⟩⟩
  · rw [MarshalDNS_small_cap s (by omega)] at h; cases h

theorem MarshalDNS_ends (s : Slice) (hcap : s.cap < 2 ^ 32) :
    MarshalDNS s ≠ .error .noTermination := by
  by_cases h12 : 12 ≤ s.cap
  · have hl : 12 ≤ (Slice.mk (s.mem.take 12) (s.mem.drop 12)).len := by
      simp only [Slice.len, Slice.mem, List.length_take, List.length_append]
      simp only [Slice.cap] at h12
      omega
    obtain ⟨H, hH⟩ := marshalDNSHdr_ok _ hl
    rw [MarshalDNS_of_hdr s H h12 hH]
    by_cases hq : H.QDCOUNT > 0
    · rw [if_pos hq]
      cases hs : s.sliceFrom 12 with
      | error e =>
        rw [Slice.sliceFrom_error _ _ _ hs]
        intro hx; cases hx
      | ok data =>
        simp only [ok_bind]
        have hsub : data.cap < 2 ^ 32 := by
          unfold Slice.sliceFrom at hs
          by_cases hc : 12 ≤ s.len
          · rw [if_pos hc] at hs
            cases hs
            simp only [Slice.cap, List.length_drop] at hcap ⊢
            omega
          · rw [if_neg hc] at hs; cases hs
        cases hr : marshalDnsQuestions data H.QDCOUNT with
        | error e =>
          intro hx
          cases hx
          exact marshalDnsQuestionsLoop_ends data hsub _ _ _ hr
        | ok r => intro hx; cases hx
    · rw [if_neg hq]; intro hx; cases hx
  · rw [MarshalDNS_small_cap s (by omega)]; intro hx; cases hx

theorem marshalDNSHdr_spare (v sp1 sp2 : List Byte) (h : 12 ≤ v.length) :
    marshalDNSHdr ⟨v, sp1⟩ = marshalDNSHdr ⟨v, sp2⟩ := by
  obtain ⟨b0, b1, b2, b3, b4, b5, b6, b7, b8, b9, b10, b11, rest, rfl⟩ :=
    exists_cons_twelve v h
  rw [marshalDNSHdr_cons, marshalDNSHdr_cons]

set_option maxRecDepth 100000 in
theorem byte_bit_le (b : Byte) :
    (b.val &&& 0x80) >>> 7 ≤ 1 ∧ (b.val &&& 0x04) >>> 2 ≤ 1 ∧ (b.val &&& 0x02) >>> 1 ≤ 1 ∧
    (b.val &&& 0x01) >>> 0 ≤ 1 := by
  revert b; decide

set_option maxRecDepth 100000 in
theorem byte_field_le (b : Byte) :
    (b.val &&& 0x78) >>> 3 ≤ 15 ∧ (b.val &&& 0x70) >>> 4 ≤ 7 ∧ (b.val &&& 0x0F) >>> 0 ≤ 15 := by
  revert b; decide

/-- The declared field widths hold in every header decoded from a buffer of at
least 12 bytes. -/
theorem marshalDNSHdr_widths (s : Slice) (h : 12 ≤ s.len) :
    ∃ hdr, marshalDNSHdr s = .ok (hdr, none) ∧
      hdr.QR ≤ 1 ∧ hdr.AA ≤ 1 ∧ hdr.TC ≤ 1 ∧ hdr.RD ≤ 1 ∧ hdr.RA ≤ 1 ∧
      hdr.OPCODE ≤ 15 ∧ hdr.Z ≤ 7 ∧ hdr.RCODE ≤ 15 := by
  obtain ⟨vis, spare⟩ := s
  obtain ⟨b0, b1, b2, b3, b4, b5, b6, b7, b8, b9, b10, b11, rest, rfl⟩ :=
    exists_cons_twelve vis h
  refine ⟨_, marshalDNSHdr_cons b0 b1 b2 b3 b4 b5 b6 b7 b8 b9 b10 b11 rest spare, ?_⟩
  exact ⟨(byte_bit_le b2).1, (byte_bit_le b2).2.1, (byte_bit_le b2).2.2.1,
    (byte_bit_le b2).2.2.2, (byte_bit_le b3).1, (byte_field_le b3).1, (byte_field_le b3).2.1,
    (byte_field_le b3).2.2⟩

/-! ## Decoding questions back to back -/

/-- Running the question loop on `d` from offset `c + o` is running it on
`d[c:]` from offset `o`, with `c` added to the returned count. -/
theorem marshalDnsQuestionsLoop_shift (d : Slice) (c : Nat) (q : DnsQuestion)
    (hc : c ≤ d.len) (hcap : d.cap < 2 ^ 32) :
    ∀ (k : Nat) (qs : List DnsQuestion) (o : Nat), c + o ≤ d.cap →
      marshalDnsQuestionsLoop d k (q :: qs) (c + o)
        = (marshalDnsQuestionsLoop ⟨d.vis.drop c, d.spare⟩ k qs o >>= fun r =>
            pure (q :: r.1, c + r.2.1, r.2.2)) := by
  intro k
  induction k with
  | zero => intro qs o _; rfl
  | succ k ih =>
    intro qs o ho
    by_cases hin : c + o ≤ d.len
    · have hs1 : d.sliceFrom (c + o) = .ok ⟨d.vis.drop (c + o), d.spare⟩ := by
        simp only [Slice.sliceFrom, if_pos hin]
      have hs2 : (Slice.mk (d.vis.drop c) d.spare).sliceFrom o
          = .ok ⟨d.vis.drop (c + o), d.spare⟩ := by
        have : o ≤ (Slice.mk (d.vis.drop c) d.spare).len := by
          simp only [Slice.len, List.length_drop] at hin hc ⊢
          omega
        simp only [Slice.sliceFrom, if_pos this, List.drop_drop]
      have hsubcap : (Slice.mk (d.vis.drop (c + o)) d.spare).cap + (c + o) = d.cap := by
        simp only [Slice.cap, Slice.len, List.length_drop] at hin ⊢
        omega
      rcases marshalDnsQuestion_cases ⟨d.vis.drop (c + o), d.spare⟩ with
        ⟨e, _, hq⟩ | ⟨labels, off, _, ⟨hq, _⟩ | ⟨t, cl, hq, hle⟩⟩
      · rw [marshalDnsQuestionsLoop_fault _ _ _ _ _ e hs1 hq,
          marshalDnsQuestionsLoop_fault _ _ _ _ _ e hs2 hq]
        rfl
      · rw [marshalDnsQuestionsLoop_fault _ _ _ _ _ _ hs1 hq,
          marshalDnsQuestionsLoop_fault _ _ _ _ _ _ hs2 hq]
        rfl
      · rw [marshalDnsQuestionsLoop_ok _ _ _ _ _ _ _ hs1 hq,
          marshalDnsQuestionsLoop_ok _ _ _ _ _ _ _ hs2 hq,
          Nat.mod_eq_of_lt (by omega), Nat.mod_eq_of_lt (by omega), Nat.add_assoc]
        exact ih _ _ (by omega)
    · have hs1 : d.sliceFrom (c + o) = .error .sliceBounds := by
        simp only [Slice.sliceFrom, if_neg hin]
      have hs2 : (Slice.mk (d.vis.drop c) d.spare).sliceFrom o = .error .sliceBounds := by
        have : ¬ o ≤ (Slice.mk (d.vis.drop c) d.spare).len := by
          simp only [Slice.len, List.length_drop] at hin hc ⊢
          omega
        simp only [Slice.sliceFrom, if_neg this]
      rw [marshalDnsQuestionsLoop_slice_fault _ _ _ _ _ hs1,
        marshalDnsQuestionsLoop_slice_fault _ _ _ _ _ hs2]
      rfl

/-- After a first question `q` of `c` bytes, `marshalDnsQuestions(d, k + 1)`
continues as `marshalDnsQuestions(d[c:], k)`, provided `d[c:]` exists or is
asked for (`k ≥ 1`). -/
theorem marshalDnsQuestions_succ (d : Slice) (k : Nat) (q : DnsQuestion) (c : Nat)
    (hcap : d.cap < 2 ^ 32) (hq : marshalDnsQuestion d = .ok (q, c, none))
    (hdef : c ≤ d.len ∨ 1 ≤ k) :
    marshalDnsQuestions d (k + 1)
      = (d.sliceFrom c >>= fun rest =>
          marshalDnsQuestions rest k >>= fun r => pure (q :: r.1, c + r.2.1, r.2.2)) := by
  have hccap : c ≤ d.cap := by
    rcases marshalDnsQuestion_cases d with
      ⟨e, _, hq2⟩ | ⟨labels, off, _, ⟨hq2, _⟩ | ⟨t, cl, hq2, hle⟩⟩
    · rw [hq] at hq2; cases hq2
    · rw [hq] at hq2; cases hq2
    · rw [hq] at hq2; cases hq2; exact hle
  unfold marshalDnsQuestions
  rw [marshalDnsQuestionsLoop_ok _ _ _ _ _ _ _ (Slice.sliceFrom_zero d) hq, Nat.zero_add,
    Nat.mod_eq_of_lt (by omega)]
  by_cases hc : c ≤ d.len
  · have hs : d.sliceFrom c = .ok ⟨d.vis.drop c, d.spare⟩ := by
      simp only [Slice.sliceFrom, if_pos hc]
    rw [hs]
    exact marshalDnsQuestionsLoop_shift d c q hc hcap k [] 0 (by omega)
  · have hs : d.sliceFrom c = .error .sliceBounds := by
      simp only [Slice.sliceFrom, if_neg hc]
    obtain ⟨j, rfl⟩ : ∃ j, k = j + 1 := ⟨k - 1, by omega⟩
    rw [hs, marshalDnsQuestionsLoop_slice_fault _ _ _ _ _ hs]
    rfl

/-! ## The claims -/

/-- CLAIM C1 (the code at the end-to-end example).  On the 29-byte example
datagram, whatever the spare capacity of the buffer, `MarshalDNS` returns a
message with `ID = 0x1234`, `RD = 1`, `QDCOUNT = 1` and one question named
`example`, `com`, but with `QTYPE = 0` and `QCLASS = 256`, not `A` and `IN`:
the type is read starting at the terminator byte of the name. -/
theorem C1_exampleQuery_type_is_zero (spare : List Byte) :
    MarshalDNS ⟨exampleQuery, spare⟩
        = .ok (⟨⟨0x1234, 0, 0, 0, 0, 1, 0, 0, 0, 1, 0, 0, 0⟩,
            [⟨[⟨7, [0x65, 0x78, 0x61, 0x6D, 0x70, 0x6C, 0x65]⟩, ⟨3, [0x63, 0x6F, 0x6D]⟩],
              0, 256⟩], [], [], []⟩, none)
      ∧ (0 : Nat) ≠ A ∧ (256 : Nat) ≠ IN := by
  refine ⟨?_, by decide, by decide⟩
  have hH : marshalDNSHdr ⟨(Slice.mk exampleQuery spare).mem.take 12,
      (Slice.mk exampleQuery spare).mem.drop 12⟩
      = .ok (⟨0x1234, 0, 0, 0, 0, 1, 0, 0, 0, 1, 0, 0, 0⟩, none) :=
    marshalDNSHdr_cons 0x12 0x34 0x01 0x00 0x00 0x01 0x00 0x00 0x00 0x00 0x00 0x00 [] _
  have hq : marshalDnsQuestion ⟨exampleQuery.drop 12, spare⟩
      = .ok (⟨[⟨7, [0x65, 0x78, 0x61, 0x6D, 0x70, 0x6C, 0x65]⟩, ⟨3, [0x63, 0x6F, 0x6D]⟩],
          0, 256⟩, 16, none) :=
    marshalDnsQuestion_encodeLabels [[0x65, 0x78, 0x61, 0x6D, 0x70, 0x6C, 0x65],
      [0x63, 0x6F, 0x6D]] [0x00, 0x01, 0x00, 0x01] spare 0x00 0x01 0x00 (0x01 :: spare)
      (by decide) (by decide) rfl
  have hqs : marshalDnsQuestions ⟨exampleQuery.drop 12, spare⟩ 1
      = .ok ([⟨[⟨7, [0x65, 0x78, 0x61, 0x6D, 0x70, 0x6C, 0x65]⟩, ⟨3, [0x63, 0x6F, 0x6D]⟩],
          0, 256⟩], 16, none) := by
    unfold marshalDnsQuestions
    rw [marshalDnsQuestionsLoop_ok _ _ 0 [] 0 _ _ (Slice.sliceFrom_zero _) hq]
    rfl
  have hs : (Slice.mk exampleQuery spare).sliceFrom 12 = .ok ⟨exampleQuery.drop 12, spare⟩ := by
    simp [Slice.sliceFrom, Slice.len, exampleQuery]
  rw [MarshalDNS_of_hdr _ _ (by simp only [Slice.cap, exampleQuery, List.length_cons]; omega) hH]
  simp only [gt_iff_lt, Nat.zero_lt_one, if_true, hs, ok_bind, hqs]
  rfl

/-- CLAIM C2 (the code at a question with type `0x0045`).  On
`01 61 00 | 00 45 | 00 01`, `marshalDnsQuestion` returns `QTYPE = 0` (the
terminator byte and the high byte of the type) and `QCLASS = 0x4500` (the low
byte of the type and the high byte of the class), consuming 6 bytes. -/
theorem C2_unknownTypeQuestion_type_is_zero (spare : List Byte) :
    marshalDnsQuestion ⟨unknownTypeQuestion, spare⟩
        = .ok (⟨[⟨1, [0x61]⟩], 0, 0x4500⟩, 6, none)
      ∧ (0 : Nat) ≠ 0x45 ∧ (0x4500 : Nat) ≠ 0x0001 := by
  refine ⟨?_, by decide, by decide⟩
  exact marshalDnsQuestion_encodeLabels [[0x61]] [0x00, 0x45, 0x00, 0x01] spare
    0x00 0x45 0x00 (0x01 :: spare) (by decide) (by decide) rfl

/-- CLAIM C3 (the code at the name `example.com`).  On the 13-byte encoding
`07 "example" 03 "com" 00`, `marshalNameLabels` returns the count 12: the
offset of the terminator byte, which is not counted. -/
theorem C3_exampleName_count_is_twelve (spare : List Byte) :
    marshalNameLabels ⟨exampleName, spare⟩
        = .ok ([⟨7, [0x65, 0x78, 0x61, 0x6D, 0x70, 0x6C, 0x65]⟩, ⟨3, [0x63, 0x6F, 0x6D]⟩], 12)
      ∧ exampleName.length = 13 ∧ (12 : Nat) ≠ (7 + 1) + (3 + 1) + 1 := by
  refine ⟨?_, by decide, by decide⟩
  exact marshalNameLabels_encodeLabels [[0x65, 0x78, 0x61, 0x6D, 0x70, 0x6C, 0x65],
    [0x63, 0x6F, 0x6D]] [] spare (by decide) (by decide)

/-- CLAIM C4.  Decoding undoes name encoding: for labels of 1 to 63 bytes each
(the encoding being shorter than `2 ^ 32` bytes, the range of the `uint32`
offset), any suffix `s` and any spare capacity, `marshalNameLabels` applied to
the encoded labels, a zero byte and `s` returns exactly those labels in order,
each with `Length` its byte count and `Data` its bytes, and no entry for the
terminator. -/
theorem C4_decode_encodeLabels (ls : List (List Byte)) (s spare : List Byte)
    (hv : ∀ l ∈ ls, 1 ≤ l.length ∧ l.length ≤ 63)
    (hlen : (encodeLabels ls).length < 2 ^ 32) :
    ∃ n, marshalNameLabels ⟨encodeLabels ls ++ 0 :: s, spare⟩
      = .ok (ls.map (fun l => (⟨l.length, l⟩ : QNameLabel)), n) :=
  ⟨_, marshalNameLabels_encodeLabels ls s spare
    (fun l hl => ⟨(hv l hl).1, Nat.le_trans (hv l hl).2 (by decide)⟩) hlen⟩

theorem C4_decode_encodeLabels_witness :
    (∀ l ∈ [[(0x77 : Byte), 0x77, 0x77], [0x61]], 1 ≤ l.length ∧ l.length ≤ 63) ∧
    (encodeLabels [[(0x77 : Byte), 0x77, 0x77], [0x61]]).length < 2 ^ 32 ∧
    ∃ n, marshalNameLabels ⟨encodeLabels [[0x77, 0x77, 0x77], [0x61]] ++ 0 :: [0x00, 0x01], []⟩
      = .ok ([[(0x77 : Byte), 0x77, 0x77], [0x61]].map
          (fun l => (⟨l.length, l⟩ : QNameLabel)), n) :=
  ⟨by decide, by decide,
    C4_decode_encodeLabels [[0x77, 0x77, 0x77], [0x61]] [0x00, 0x01] [] (by decide) (by decide)⟩

/-- CLAIM C5 (the code at a header with byte 2 = `0x01`, byte 3 = `0x08`).
`marshalDNSHdr` returns `OPCODE = 1`, taken from bits 6..3 of byte 3, where
bits 6..3 of byte 2 are `0`. -/
theorem C5_opcode_read_from_byte3 (spare : List Byte) :
    marshalDNSHdr ⟨opcodeHeader, spare⟩
        = .ok (⟨0, 0, 1, 0, 0, 1, 0, 0, 8, 0, 0, 0, 0⟩, none)
      ∧ ((0x01 : Nat) >>> 3) &&& 0x0F = 0 := by
  refine ⟨?_, by decide⟩
  exact marshalDNSHdr_cons 0x00 0x00 0x01 0x08 0x00 0x00 0x00 0x00 0x00 0x00 0x00 0x00 [] spare

/-- CLAIM C6.  For every buffer of at least 12 bytes, with `b2` and `b3` the bytes
at offsets 2 and 3, `marshalDNSHdr` returns a header and a nil error, and in that
header `QR` is bit 7 of `b2`, `AA` bit 2, `TC` bit 1, `RD` bit 0, `RA` is bit 7
of `b3`, `Z` is `(b3 >> 4) & 7` and `RCODE` is `b3 & 0x0F`. -/
theorem C6_header_flag_bits (s : Slice) (h : 12 ≤ s.len) :
    ∃ hdr, marshalDNSHdr s = .ok (hdr, none) ∧
      hdr.QR = (s.vis.getD 2 0).val / 2 ^ 7 % 2 ∧
      hdr.AA = (s.vis.getD 2 0).val / 2 ^ 2 % 2 ∧
      hdr.TC = (s.vis.getD 2 0).val / 2 ^ 1 % 2 ∧
      hdr.RD = (s.vis.getD 2 0).val / 2 ^ 0 % 2 ∧
      hdr.RA = (s.vis.getD 3 0).val / 2 ^ 7 % 2 ∧
      hdr.Z = ((s.vis.getD 3 0).val >>> 4) &&& 7 ∧
      hdr.RCODE = (s.vis.getD 3 0).val &&& 0x0F := by
  obtain ⟨vis, spare⟩ := s
  obtain ⟨b0, b1, b2, b3, b4, b5, b6, b7, b8, b9, b10, b11, rest, rfl⟩ :=
    exists_cons_twelve vis h
  refine ⟨_, marshalDNSHdr_cons b0 b1 b2 b3 b4 b5 b6 b7 b8 b9 b10 b11 rest spare, ?_⟩
  simp only [List.getD_cons_succ, List.getD_cons_zero]
  refine ⟨byte_bit7 b2, byte_bit2 b2, byte_bit1 b2, ?_, byte_bit7 b3, byte_bits64 b3, rfl⟩
  rw [byte_bit0 b2]; simp

theorem C6_header_flag_bits_witness :
    12 ≤ (Slice.ofList opcodeHeader).len ∧
    ∃ hdr, marshalDNSHdr (Slice.ofList opcodeHeader) = .ok (hdr, none) ∧
      hdr.QR = ((Slice.ofList opcodeHeader).vis.getD 2 0).val / 2 ^ 7 % 2 ∧
      hdr.AA = ((Slice.ofList opcodeHeader).vis.getD 2 0).val / 2 ^ 2 % 2 ∧
      hdr.TC = ((Slice.ofList opcodeHeader).vis.getD 2 0).val / 2 ^ 1 % 2 ∧
      hdr.RD = ((Slice.ofList opcodeHeader).vis.getD 2 0).val / 2 ^ 0 % 2 ∧
      hdr.RA = ((Slice.ofList opcodeHeader).vis.getD 3 0).val / 2 ^ 7 % 2 ∧
      hdr.Z = (((Slice.ofList opcodeHeader).vis.getD 3 0).val >>> 4) &&& 7 ∧
      hdr.RCODE = ((Slice.ofList opcodeHeader).vis.getD 3 0).val &&& 0x0F :=
  ⟨by decide, C6_header_flag_bits (Slice.ofList opcodeHeader) (by decide)⟩

/-- CLAIM C7.  For every buffer `d` of at least 12 bytes `marshalDNSHdr` yields
`ID = 256*d[0] + d[1]`, `QDCOUNT = 256*d[4] + d[5]`, `ADCOUNT = 256*d[6] + d[7]`,
`NSCOUNT = 256*d[8] + d[9]` and `ARCOUNT = 256*d[10] + d[11]`; and a second
buffer that agrees with `d` on the two bytes of a field yields the same value
of that field, whatever its other bytes. -/
theorem C7_header_big_endian_fields (s t : Slice) (h : 12 ≤ s.len) (ht : 12 ≤ t.len) :
    ∃ hdr hdt, marshalDNSHdr s = .ok (hdr, none) ∧ marshalDNSHdr t = .ok (hdt, none) ∧
      hdr.ID = 256 * (s.vis.getD 0 0).val + (s.vis.getD 1 0).val ∧
      hdr.QDCOUNT = 256 * (s.vis.getD 4 0).val + (s.vis.getD 5 0).val ∧
      hdr.ADCOUNT = 256 * (s.vis.getD 6 0).val + (s.vis.getD 7 0).val ∧
      hdr.NSCOUNT = 256 * (s.vis.getD 8 0).val + (s.vis.getD 9 0).val ∧
      hdr.ARCOUNT = 256 * (s.vis.getD 10 0).val + (s.vis.getD 11 0).val ∧
      (s.vis.getD 0 0 = t.vis.getD 0 0 → s.vis.getD 1 0 = t.vis.getD 1 0 →
        hdr.ID = hdt.ID) ∧
      (s.vis.getD 4 0 = t.vis.getD 4 0 → s.vis.getD 5 0 = t.vis.getD 5 0 →
        hdr.QDCOUNT = hdt.QDCOUNT) ∧
      (s.vis.getD 6 0 = t.vis.getD 6 0 → s.vis.getD 7 0 = t.vis.getD 7 0 →
        hdr.ADCOUNT = hdt.ADCOUNT) ∧
      (s.vis.getD 8 0 = t.vis.getD 8 0 → s.vis.getD 9 0 = t.vis.getD 9 0 →
        hdr.NSCOUNT = hdt.NSCOUNT) ∧
      (s.vis.getD 10 0 = t.vis.getD 10 0 → s.vis.getD 11 0 = t.vis.getD 11 0 →
        hdr.ARCOUNT = hdt.ARCOUNT) := by
  obtain ⟨vis, spare⟩ := s
  obtain ⟨vit, spart⟩ := t
  obtain ⟨b0, b1, b2, b3, b4, b5, b6, b7, b8, b9, b10, b11, rest, rfl⟩ :=
    exists_cons_twelve vis h
  obtain ⟨c0, c1, c2, c3, c4, c5, c6, c7, c8, c9, c10, c11, rest2, rfl⟩ :=
    exists_cons_twelve vit ht
  refine ⟨_, _, marshalDNSHdr_cons b0 b1 b2 b3 b4 b5 b6 b7 b8 b9 b10 b11 rest spare,
    marshalDNSHdr_cons c0 c1 c2 c3 c4 c5 c6 c7 c8 c9 c10 c11 rest2 spart, ?_⟩
  simp only [List.getD_cons_succ, List.getD_cons_zero, true_and]
  refine ⟨?_, ?_, ?_, ?_, ?_⟩ <;>
    (intro e1 e2; rw [e1, e2])

theorem C7_header_big_endian_fields_witness :
    12 ≤ (Slice.ofList opcodeHeader).len ∧ 12 ≤ (Slice.ofList exampleQuery).len ∧
    ∃ hdr hdt, marshalDNSHdr (Slice.ofList opcodeHeader) = .ok (hdr, none) ∧
      marshalDNSHdr (Slice.ofList exampleQuery) = .ok (hdt, none) ∧
      hdr.ID = 256 * ((Slice.ofList opcodeHeader).vis.getD 0 0).val
        + ((Slice.ofList opcodeHeader).vis.getD 1 0).val :=
  ⟨by decide, by decide,
    match C7_header_big_endian_fields (Slice.ofList opcodeHeader) (Slice.ofList exampleQuery)
      (by decide) (by decide) with
    | ⟨hdr, hdt, h1, h2, h3, _⟩ => ⟨hdr, hdt, h1, h2, h3⟩⟩

/-- CLAIM C8 (the code at a datagram with `QDCOUNT = 2` and exactly two
well-formed questions).  `MarshalDNS` does not return two questions: each
question is taken to end one byte early, the second name is decoded from the
last class byte of the first question on, and decoding panics, with a slice
bounds fault when the buffer has no spare capacity and with an index fault
when it sits in a 2048-byte array. -/
theorem C8_twoQuestionQuery_faults :
    MarshalDNS (Slice.ofList twoQuestionQuery) = .error .sliceBounds ∧
    Panics (MarshalDNS ⟨twoQuestionQuery, List.replicate 2022 0⟩) :=
  ⟨rfl, MarshalDNS_twoQuestionQuery_panics _ (by rw [List.length_replicate]; decide)⟩

/-- CLAIM C9, counterexample.  The empty buffer is shorter than 12 bytes;
without spare capacity `MarshalDNS` panics on it, and inside a zeroed 12-byte
array it returns the zero message with a nil error. Neither is a
`TruncatedInput` error result. -/
theorem C9_counterexample_empty_buffer :
    (Slice.ofList []).len < 12 ∧
    MarshalDNS (Slice.ofList []) = .error .sliceBounds ∧
    MarshalDNS ⟨[], List.replicate 12 0⟩ = .ok (DnsMessage.zero, none) :=
  ⟨by decide, rfl, rfl⟩

/-- CLAIM C9, amended.  For every buffer shorter than 12 bytes `MarshalDNS`
returns no error value.  When the capacity is below 12 it panics on
`data[0:12]`.  When the capacity is at least 12 the header is decoded from the
first 12 bytes of the backing array; `MarshalDNS` then returns that header with
no questions and a nil error if its `QDCOUNT` is 0, and panics on `data[12:]`
otherwise. -/
theorem C9_short_buffer_never_errors (s : Slice) (h : s.len < 12) :
    (s.cap < 12 → MarshalDNS s = .error .sliceBounds) ∧
    (12 ≤ s.cap → ∃ hdr,
      marshalDNSHdr ⟨s.mem.take 12, s.mem.drop 12⟩ = .ok (hdr, none) ∧
      (hdr.QDCOUNT = 0 → MarshalDNS s = .ok (⟨hdr, [], [], [], []⟩, none)) ∧
      (0 < hdr.QDCOUNT → MarshalDNS s = .error .sliceBounds)) ∧
    (∀ m e, MarshalDNS s ≠ .ok (m, some e)) := by
  have key : 12 ≤ s.cap → ∃ hdr,
      marshalDNSHdr ⟨s.mem.take 12, s.mem.drop 12⟩ = .ok (hdr, none) ∧
      (hdr.QDCOUNT = 0 → MarshalDNS s = .ok (⟨hdr, [], [], [], []⟩, none)) ∧
      (0 < hdr.QDCOUNT → MarshalDNS s = .error .sliceBounds) := by
    intro hcap
    have hl : 12 ≤ (Slice.mk (s.mem.take 12) (s.mem.drop 12)).len := by
      simp only [Slice.len, Slice.mem, List.length_take, List.length_append]
      simp only [Slice.cap] at hcap
      omega
    obtain ⟨hdr, hH⟩ := marshalDNSHdr_ok _ hl
    refine ⟨hdr, hH, ?_, ?_⟩
    · intro hz
      rw [MarshalDNS_of_hdr s hdr hcap hH]
      simp [hz]
      rfl
    · intro hp
      have hs : s.sliceFrom 12 = .error .sliceBounds := by
        have : ¬ (12 ≤ s.len) := by omega
        simp [Slice.sliceFrom, this]
      rw [MarshalDNS_of_hdr s hdr hcap hH]
      simp [hp, hs, error_bind]
  refine ⟨MarshalDNS_small_cap s, key, ?_⟩
  intro m e
  by_cases hcap : 12 ≤ s.cap
  · obtain ⟨hdr, _, hz, hp⟩ := key hcap
    by_cases hq : hdr.QDCOUNT = 0
    · rw [hz hq]; simp
    · rw [hp (by omega)]; simp
  · rw [MarshalDNS_small_cap s (by omega)]; simp

theorem C9_short_buffer_never_errors_witness :
    (Slice.mk [0x12, 0x34] []).len < 12 ∧
    MarshalDNS ⟨[0x12, 0x34], []⟩ = .error .sliceBounds :=
  ⟨by decide,
    (C9_short_buffer_never_errors ⟨[0x12, 0x34], []⟩ (by decide)).1 (by decide)⟩

/-- CLAIM C10, counterexample.  A label announcing 5 bytes with 1 byte left, and
a name whose buffer ends before a zero byte, make `marshalNameLabels` panic; so
do `marshalDnsQuestion` on the first and `MarshalDNS` on a datagram holding
it.  No error value is returned. -/
theorem C10_counterexample_truncated_label :
    marshalNameLabels (Slice.ofList truncatedName) = .error .sliceBounds ∧
    marshalNameLabels (Slice.ofList unterminatedName) = .error .indexOutOfRange ∧
    marshalDnsQuestion (Slice.ofList truncatedName) = .error .sliceBounds ∧
    MarshalDNS (Slice.ofList truncatedQuery) = .error .sliceBounds :=
  ⟨rfl, rfl, rfl, rfl⟩

/-- CLAIM C10, amended.  Take a name buffer (capacity below `2 ^ 32`) made of
complete labels of 1 to 254 bytes followed by `tail`, where `tail` is empty
(the buffer ends before a zero byte) or starts with a length byte announcing
more bytes than remain after it.  Then `marshalNameLabels` ends in a Go
run-time panic (index or slice bounds out of range), and so do
`marshalDnsQuestion` on that buffer and `MarshalDNS` on every datagram made of
a 12-byte header with non-zero `QDCOUNT` followed by that buffer. -/
theorem C10_truncated_name_panics (ls : List (List Byte)) (tail spare : List Byte)
    (hv : ∀ l ∈ ls, 1 ≤ l.length ∧ l.length ≤ 254)
    (hcap : (Slice.mk (encodeLabels ls ++ tail) spare).cap < 2 ^ 32)
    (ht : tail = [] ∨ ∃ L rest, tail = L :: rest ∧ rest.length < L.val) :
    Panics (marshalNameLabels ⟨encodeLabels ls ++ tail, spare⟩) ∧
    Panics (marshalDnsQuestion ⟨encodeLabels ls ++ tail, spare⟩) ∧
    ∀ hdr : List Byte, hdr.length = 12 →
      0 < 256 * (hdr.getD 4 0).val + (hdr.getD 5 0).val →
      Panics (MarshalDNS ⟨hdr ++ (encodeLabels ls ++ tail), spare⟩) := by
  have hn := marshalNameLabels_truncated ls tail spare hv hcap ht
  have hq : ∀ e, marshalNameLabels ⟨encodeLabels ls ++ tail, spare⟩ = .error e →
      marshalDnsQuestion ⟨encodeLabels ls ++ tail, spare⟩ = .error e :=
    fun e he => marshalDnsQuestion_name_fault _ e he
  have hm : ∀ e, marshalNameLabels ⟨encodeLabels ls ++ tail, spare⟩ = .error e →
      ∀ hdr : List Byte, hdr.length = 12 →
        0 < 256 * (hdr.getD 4 0).val + (hdr.getD 5 0).val →
        MarshalDNS ⟨hdr ++ (encodeLabels ls ++ tail), spare⟩ = .error e := by
    intro e he hdr h12 hqd
    obtain ⟨b0, b1, b2, b3, b4, b5, b6, b7, b8, b9, b10, b11, rest, rfl⟩ :=
      exists_cons_twelve hdr (by omega)
    have hr : rest = [] := by
      simp only [List.length_cons] at h12
      exact List.length_eq_zero.mp (by omega)
    subst hr
    simp only [List.getD_cons_succ, List.getD_cons_zero] at hqd
    exact MarshalDNS_first_question_fault _ _ e
      (by simp only [Slice.len, List.length_append, List.length_cons]; omega)
      (marshalDNSHdr_cons b0 b1 b2 b3 b4 b5 b6 b7 b8 b9 b10 b11 _ spare) hqd (hq e he)
  rcases hn with h | h
  · exact ⟨Or.inl h, Or.inl (hq _ h), fun hdr h12 hqd => Or.inl (hm _ h hdr h12 hqd)⟩
  · exact ⟨Or.inr h, Or.inr (hq _ h), fun hdr h12 hqd => Or.inr (hm _ h hdr h12 hqd)⟩

theorem C10_truncated_name_panics_witness :
    (∀ l ∈ [[(0x77 : Byte), 0x77]], 1 ≤ l.length ∧ l.length ≤ 254) ∧
    (Slice.mk (encodeLabels [[0x77, 0x77]] ++ [0x05, 0x61]) [0x00, 0x00]).cap < 2 ^ 32 ∧
    Panics (marshalNameLabels ⟨encodeLabels [[0x77, 0x77]] ++ [0x05, 0x61], [0x00, 0x00]⟩) :=
  ⟨by decide, by decide,
    (C10_truncated_name_panics [[0x77, 0x77]] [0x05, 0x61] [0x00, 0x00] (by decide) (by decide)
      (Or.inr ⟨0x05, [0x61], rfl, by decide⟩)).1⟩

/-- CLAIM C11, counterexample.  With nothing after the terminator
`marshalDnsQuestion` panics instead of returning an error, and with exactly
three bytes after the terminator it returns a question. -/
theorem C11_counterexample_short_question :
    marshalDnsQuestion (Slice.ofList nameOnly) = .error .sliceBounds ∧
    marshalDnsQuestion (Slice.ofList nameThreeBytes)
      = .ok (⟨[⟨1, [0x61]⟩], 0, 256⟩, 6, none) :=
  ⟨rfl, rfl⟩

/-- CLAIM C11, amended.  For every buffer that holds a well-formed name (labels
of 1 to 63 bytes and a zero terminator, shorter than `2 ^ 32` bytes) followed by
at most 2 bytes up to the end of its capacity, `marshalDnsQuestion` ends in a
slice bounds panic and returns no question; and on no buffer whatsoever does
`marshalDnsQuestion` return a non-nil error. -/
theorem C11_short_question_panics (ls : List (List Byte)) (rest spare : List Byte)
    (hv : ∀ l ∈ ls, 1 ≤ l.length ∧ l.length ≤ 63)
    (hlen : (encodeLabels ls).length + 4 < 2 ^ 32)
    (hshort : rest.length + spare.length ≤ 2) :
    marshalDnsQuestion ⟨encodeLabels ls ++ 0 :: rest, spare⟩ = .error .sliceBounds ∧
    ∀ (s : Slice) (q : DnsQuestion) (n : Nat) (e : DecodeError),
      marshalDnsQuestion s ≠ .ok (q, n, some e) := by
  constructor
  · have hn := marshalNameLabels_encodeLabels ls rest spare
      (fun l hl => ⟨(hv l hl).1, Nat.le_trans (hv l hl).2 (by decide)⟩) (by omega)
    rcases marshalDnsQuestion_cases ⟨encodeLabels ls ++ 0 :: rest, spare⟩ with
      ⟨e, hn2, _⟩ | ⟨labels, off, hn2, ⟨hq, _⟩ | ⟨t, c, _, hcap⟩⟩
    · rw [hn] at hn2; cases hn2
    · exact hq
    · rw [hn] at hn2
      cases hn2
      simp only [Slice.cap, List.length_append, List.length_cons] at hcap
      omega
  · intro s q n e h
    rcases marshalDnsQuestion_cases s with
      ⟨e2, _, hq⟩ | ⟨labels, off, _, ⟨hq, _⟩ | ⟨t, c, hq, _⟩⟩
    · rw [hq] at h; cases h
    · rw [hq] at h; cases h
    · rw [hq] at h; cases h

theorem C11_short_question_panics_witness :
    (∀ l ∈ [[(0x61 : Byte)]], 1 ≤ l.length ∧ l.length ≤ 63) ∧
    (encodeLabels [[(0x61 : Byte)]]).length + 4 < 2 ^ 32 ∧
    ([0x00, 0x01] : List Byte).length + ([] : List Byte).length ≤ 2 ∧
    marshalDnsQuestion ⟨encodeLabels [[0x61]] ++ 0 :: [0x00, 0x01], []⟩
      = .error .sliceBounds :=
  ⟨by decide, by decide, by decide,
    (C11_short_question_panics [[0x61]] [0x00, 0x01] [] (by decide) (by decide)
      (by decide)).1⟩

/-- CLAIM C12, counterexample.  On a 12-byte datagram whose header announces
one question `MarshalDNS` panics: `marshalNameLabels` indexes `data[0]` of the
empty question section. -/
theorem C12_counterexample_header_only :
    MarshalDNS (Slice.ofList headerOnlyQuery) = .error .indexOutOfRange :=
  rfl

/-- CLAIM C12, amended.  On every buffer of capacity below `2 ^ 32`, `MarshalDNS`
ends: it either returns a message with a nil error or ends in a Go run-time
panic (index or slice bounds out of range).  It never returns an error
value. -/
theorem C12_returns_or_panics (s : Slice) (hcap : s.cap < 2 ^ 32) :
    (∃ m, MarshalDNS s = .ok (m, none)) ∨ Panics (MarshalDNS s) := by
  cases h : MarshalDNS s with
  | error e =>
    right
    cases e with
    | indexOutOfRange => exact Or.inl rfl
    | sliceBounds => exact Or.inr rfl
    | noTermination => exact absurd h (MarshalDNS_ends s hcap)
  | ok r =>
    left
    obtain ⟨m, err⟩ := r
    obtain ⟨_, _, _, _, _, hq⟩ := MarshalDNS_ok_inv s m err h
    rcases hq with ⟨_, _, he⟩ | ⟨_, _, n, hr⟩
    · exact ⟨m, by rw [he]⟩
    · have := (marshalDnsQuestionsLoop_inv _ (fun _ => True)
        (fun _ _ _ _ _ _ => trivial) _ _ _ _ _ _ hr (fun _ _ => trivial)).1
      exact ⟨m, by rw [this]⟩

theorem C12_returns_or_panics_witness :
    (Slice.ofList headerOnlyQuery).cap < 2 ^ 32 ∧
    ((∃ m, MarshalDNS (Slice.ofList headerOnlyQuery) = .ok (m, none)) ∨
      Panics (MarshalDNS (Slice.ofList headerOnlyQuery))) :=
  ⟨by decide, C12_returns_or_panics (Slice.ofList headerOnlyQuery) (by decide)⟩

/-- CLAIM C13.  For every buffer on which `MarshalDNS` returns a message, the
`Answers`, `Authorities` and `Additionals` of that message are empty, whatever
the counts in the header and the bytes after the question section. -/
theorem C13_record_sections_empty (s : Slice) (m : DnsMessage) (err : Option DecodeError)
    (h : MarshalDNS s = .ok (m, err)) :
    m.Answers = [] ∧ m.Authorities = [] ∧ m.Additionals = [] := by
  obtain ⟨_, _, h1, h2, h3, _⟩ := MarshalDNS_ok_inv s m err h
  exact ⟨h1, h2, h3⟩

theorem C13_record_sections_empty_witness :
    MarshalDNS (Slice.ofList recordCountsQuery)
      = .ok (⟨⟨7, 1, 0, 0, 0, 1, 1, 0, 0, 0, 1, 2, 3⟩, [], [], [], []⟩, none) ∧
    (⟨⟨7, 1, 0, 0, 0, 1, 1, 0, 0, 0, 1, 2, 3⟩, [], [], [], []⟩ : DnsMessage).Answers = [] ∧
    (⟨⟨7, 1, 0, 0, 0, 1, 1, 0, 0, 0, 1, 2, 3⟩, [], [], [], []⟩ : DnsMessage).Authorities = [] ∧
    (⟨⟨7, 1, 0, 0, 0, 1, 1, 0, 0, 0, 1, 2, 3⟩, [], [], [], []⟩ : DnsMessage).Additionals = [] :=
  ⟨rfl, C13_record_sections_empty (Slice.ofList recordCountsQuery) _ none rfl⟩

/-- CLAIM C14.  For every buffer on which `MarshalDNS` returns, the number of
questions of the returned message equals the `QDCOUNT` of its header; and when
that `QDCOUNT` is 0 the question sequence is empty and nothing after the first
12 bytes is examined: every buffer with the same first 12 bytes gives the same
result. -/
theorem C14_question_count (s : Slice) (m : DnsMessage) (err : Option DecodeError)
    (h : MarshalDNS s = .ok (m, err)) :
    m.Questions.length = m.Hdr.QDCOUNT ∧
    (m.Hdr.QDCOUNT = 0 → m.Questions = [] ∧
      ∀ t : Slice, t.mem.take 12 = s.mem.take 12 → MarshalDNS t = .ok (m, err)) := by
  obtain ⟨hcap, hH, h1, h2, h3, hq⟩ := MarshalDNS_ok_inv s m err h
  have hs12 : (s.mem.take 12).length = 12 := by
    simp only [Slice.cap] at hcap
    simp only [Slice.mem, List.length_take, List.length_append]
    omega
  rcases hq with ⟨hz, hqs, he⟩ | ⟨hpos, _, n, hr⟩
  · refine ⟨by rw [hqs, hz]; rfl, fun _ => ⟨hqs, ?_⟩⟩
    intro t ht
    have htcap : 12 ≤ t.cap := by
      have := congrArg List.length ht
      rw [hs12] at this
      simp only [Slice.mem, List.length_take, List.length_append] at this
      simp only [Slice.cap]
      omega
    have hHt : marshalDNSHdr ⟨t.mem.take 12, t.mem.drop 12⟩ = .ok (m.Hdr, none) := by
      rw [ht, marshalDNSHdr_spare _ _ (s.mem.drop 12) (by omega)]
      exact hH
    rw [MarshalDNS_of_hdr t m.Hdr htcap hHt, if_neg (by omega), he]
    obtain ⟨H, Q, An, Au, Ad⟩ := m
    simp only at hqs h1 h2 h3
    rw [hqs, h1, h2, h3]
    rfl
  · have := (marshalDnsQuestionsLoop_inv _ (fun _ => True)
      (fun _ _ _ _ _ _ => trivial) _ _ _ _ _ _ hr (fun _ _ => trivial)).2.1
    refine ⟨by rw [this]; simp, fun hz => ?_⟩
    omega

theorem C14_question_count_witness :
    MarshalDNS (Slice.ofList exampleQuery)
      = .ok (⟨⟨0x1234, 0, 0, 0, 0, 1, 0, 0, 0, 1, 0, 0, 0⟩,
          [⟨[⟨7, [0x65, 0x78, 0x61, 0x6D, 0x70, 0x6C, 0x65]⟩, ⟨3, [0x63, 0x6F, 0x6D]⟩],
            0, 256⟩], [], [], []⟩, none) ∧
    ([⟨[⟨7, [0x65, 0x78, 0x61, 0x6D, 0x70, 0x6C, 0x65]⟩, ⟨3, [0x63, 0x6F, 0x6D]⟩],
      0, 256⟩] : List DnsQuestion).length = 1 :=
  ⟨rfl, (C14_question_count (Slice.ofList exampleQuery) _ none rfl).1⟩

/-- CLAIM C15.  For every buffer on which `marshalDnsQuestion` returns, the byte
count it reports equals the byte count reported by `marshalNameLabels` on the
same buffer plus 4. -/
theorem C15_question_count_is_name_plus_four (s : Slice) (q : DnsQuestion) (n : Nat)
    (err : Option DecodeError) (h : marshalDnsQuestion s = .ok (q, n, err)) :
    ∃ labels off, marshalNameLabels s = .ok (labels, off) ∧ n = off + 4 := by
  rcases marshalDnsQuestion_cases s with
    ⟨e, _, hq⟩ | ⟨labels, off, hn, ⟨hq, _⟩ | ⟨t, c, hq, _⟩⟩
  · rw [hq] at h; cases h
  · rw [hq] at h; cases h
  · rw [hq] at h
    cases h
    exact ⟨labels, off, hn, rfl⟩

theorem C15_question_count_is_name_plus_four_witness :
    marshalDnsQuestion (Slice.ofList unknownTypeQuestion)
      = .ok (⟨[⟨1, [0x61]⟩], 0, 0x4500⟩, 6, none) ∧
    ∃ labels off, marshalNameLabels (Slice.ofList unknownTypeQuestion) = .ok (labels, off) ∧
      6 = off + 4 :=
  ⟨rfl, C15_question_count_is_name_plus_four (Slice.ofList unknownTypeQuestion) _ 6 none rfl⟩

/-- CLAIM C16 (the code at the length byte `0xFF`).  On `0xFF` followed by 255
bytes, whatever the spare capacity, `marshalNameLabel` panics: `label.Length+1`
is computed in `uint8` and wraps to 0, so the slice expression is
`data[1:0]`. -/
theorem C16_length_255_panics (spare : List Byte) :
    marshalNameLabel ⟨maxLengthLabel, spare⟩ = .error .sliceBounds ∧
    (255 + 1) % 2 ^ 8 = 0 ∧ maxLengthLabel.length = 255 + 1 :=
  ⟨marshalNameLabel_cons_fault 0xFF (List.replicate 255 0x61) spare (Or.inl rfl),
    by decide, by rw [maxLengthLabel, List.length_cons, List.length_replicate]⟩

/-- CLAIM C17.  For every buffer of at least 12 bytes, the header that
`marshalDNSHdr` produces has `QR`, `AA`, `TC`, `RD` and `RA` at most 1,
`OPCODE` at most 15, `Z` at most 7 and `RCODE` at most 15; so has the header of
every message that `MarshalDNS` returns. -/
theorem C17_header_field_widths (s : Slice) (h : 12 ≤ s.len) :
    (∃ hdr, marshalDNSHdr s = .ok (hdr, none) ∧
      hdr.QR ≤ 1 ∧ hdr.AA ≤ 1 ∧ hdr.TC ≤ 1 ∧ hdr.RD ≤ 1 ∧ hdr.RA ≤ 1 ∧
      hdr.OPCODE ≤ 15 ∧ hdr.Z ≤ 7 ∧ hdr.RCODE ≤ 15) ∧
    ∀ m err, MarshalDNS s = .ok (m, err) →
      m.Hdr.QR ≤ 1 ∧ m.Hdr.AA ≤ 1 ∧ m.Hdr.TC ≤ 1 ∧ m.Hdr.RD ≤ 1 ∧ m.Hdr.RA ≤ 1 ∧
      m.Hdr.OPCODE ≤ 15 ∧ m.Hdr.Z ≤ 7 ∧ m.Hdr.RCODE ≤ 15 := by
  refine ⟨marshalDNSHdr_widths s h, ?_⟩
  intro m err hm
  obtain ⟨hcap, hH, _⟩ := MarshalDNS_ok_inv s m err hm
  have hl : 12 ≤ (Slice.mk (s.mem.take 12) (s.mem.drop 12)).len := by
    simp only [Slice.len, Slice.mem, List.length_take, List.length_append]
    simp only [Slice.cap] at hcap
    omega
  obtain ⟨hdr, hH2, hw⟩ := marshalDNSHdr_widths _ hl
  rw [hH] at hH2
  cases hH2
  exact hw

theorem C17_header_field_widths_witness :
    12 ≤ (Slice.ofList recordCountsQuery).len ∧
    ∃ hdr, marshalDNSHdr (Slice.ofList recordCountsQuery) = .ok (hdr, none) ∧
      hdr.QR ≤ 1 ∧ hdr.AA ≤ 1 ∧ hdr.TC ≤ 1 ∧ hdr.RD ≤ 1 ∧ hdr.RA ≤ 1 ∧
      hdr.OPCODE ≤ 15 ∧ hdr.Z ≤ 7 ∧ hdr.RCODE ≤ 15 :=
  ⟨by decide, (C17_header_field_widths (Slice.ofList recordCountsQuery) (by decide)).1⟩

/-- CLAIM C18.  Every label in every sequence returned by `marshalNameLabels`
has `Length ≥ 1` and exactly `Length` bytes in `Data`; so has every label of
the `QNAME` returned by `marshalDnsQuestion` and of every question returned by
`MarshalDNS`. -/
theorem C18_labels_nonempty_and_sized (s : Slice) :
    (∀ labels n, marshalNameLabels s = .ok (labels, n) →
      ∀ l ∈ labels, 1 ≤ l.Length ∧ l.Data.length = l.Length) ∧
    (∀ q n err, marshalDnsQuestion s = .ok (q, n, err) →
      ∀ l ∈ q.QNAME, 1 ≤ l.Length ∧ l.Data.length = l.Length) ∧
    (∀ m err, MarshalDNS s = .ok (m, err) →
      ∀ q ∈ m.Questions, ∀ l ∈ q.QNAME, 1 ≤ l.Length ∧ l.Data.length = l.Length) := by
  have key : ∀ (sub : Slice) labels n, marshalNameLabels sub = .ok (labels, n) →
      ∀ l ∈ labels, 1 ≤ l.Length ∧ l.Data.length = l.Length := by
    intro sub labels n h l hl
    have := marshalNameLabelsLoop_labels sub _ [] 0 labels n h (by simp) l hl
    exact ⟨this.1, this.2.2⟩
  refine ⟨key s, ?_, ?_⟩
  · intro q n err h
    rcases marshalDnsQuestion_cases s with
      ⟨e, _, hq⟩ | ⟨labels, off, hn, ⟨hq, _⟩ | ⟨t, c, hq, _⟩⟩
    · rw [hq] at h; cases h
    · rw [hq] at h; cases h
    · rw [hq] at h
      cases h
      exact key s labels off hn
  · intro m err h
    obtain ⟨_, _, _, _, _, hq⟩ := MarshalDNS_ok_inv s m err h
    rcases hq with ⟨_, hqs, _⟩ | ⟨_, _, n, hr⟩
    · rw [hqs]; simp
    · exact (marshalDnsQuestionsLoop_inv _
        (fun q => ∀ l ∈ q.QNAME, 1 ≤ l.Length ∧ l.Data.length = l.Length)
        (fun sub labels off _ _ hn => key sub labels off hn) _ _ _ _ _ _ hr (by simp)).2.2

theorem C18_labels_nonempty_and_sized_witness :
    marshalNameLabels (Slice.ofList exampleName)
      = .ok ([⟨7, [0x65, 0x78, 0x61, 0x6D, 0x70, 0x6C, 0x65]⟩, ⟨3, [0x63, 0x6F, 0x6D]⟩], 12) ∧
    ∀ l ∈ ([⟨7, [0x65, 0x78, 0x61, 0x6D, 0x70, 0x6C, 0x65]⟩, ⟨3, [0x63, 0x6F, 0x6D]⟩] :
        List QNameLabel), 1 ≤ l.Length ∧ l.Data.length = l.Length :=
  ⟨rfl, (C18_labels_nonempty_and_sized (Slice.ofList exampleName)).1 _ 12 rfl⟩

/-- CLAIM C19, counterexample.  For the 3-byte slice `01 61 00` of an array that
continues with `00 01 00`, `marshalDnsQuestion` returns a question with the
count 6, and `marshalDnsQuestions(d, 1)` returns that question; but `d[6:]`
panics, so `marshalDnsQuestions(d[6:], 0)` does not succeed. -/
theorem C19_counterexample_count_past_length :
    marshalDnsQuestion nameInLargerArray = .ok (⟨[⟨1, [0x61]⟩], 0, 256⟩, 6, none) ∧
    marshalDnsQuestions nameInLargerArray 1 = .ok ([⟨[⟨1, [0x61]⟩], 0, 256⟩], 6, none) ∧
    (nameInLargerArray.sliceFrom 6 >>= fun rest => marshalDnsQuestions rest 0)
      = .error .sliceBounds :=
  ⟨rfl, rfl, rfl⟩

/-- CLAIM C19, amended.  Let `d` have a capacity below `2 ^ 32`, let `n ≥ 1`, and
let `marshalDnsQuestion` on `d` return `q` with the count `c`.  If `c ≤ len(d)`
or `n ≥ 2`, then `marshalDnsQuestions(d, n)` is `marshalDnsQuestions(d[c:], n-1)`
with `q` put in front and `c` added to the count: the one succeeds exactly when
the other does (a panic of `d[c:]` included).  For `n = 1`,
`marshalDnsQuestions(d, 1)` returns `q` alone with the count `c`.  And on a
buffer of at least 12 bytes `MarshalDNS` decodes the questions from
`data[12:]`. -/
theorem C19_questions_back_to_back (d : Slice) (n : Nat) (q : DnsQuestion) (c : Nat)
    (err : Option DecodeError) (hn : 1 ≤ n) (hcap : d.cap < 2 ^ 32)
    (hq : marshalDnsQuestion d = .ok (q, c, err)) :
    (c ≤ d.len ∨ 2 ≤ n →
      marshalDnsQuestions d n
        = (d.sliceFrom c >>= fun rest =>
            marshalDnsQuestions rest (n - 1) >>= fun r =>
              pure (q :: r.1, c + r.2.1, r.2.2))) ∧
    marshalDnsQuestions d 1 = .ok ([q], c, none) ∧
    ∀ s : Slice, 12 ≤ s.len → ∃ H, marshalDNSHdr s = .ok (H, none) ∧
      MarshalDNS s
        = if H.QDCOUNT > 0 then
            marshalDnsQuestions ⟨s.vis.drop 12, s.spare⟩ H.QDCOUNT >>= fun r =>
              pure (⟨H, r.1, [], [], []⟩, r.2.2)
          else pure (⟨H, [], [], [], []⟩, none) := by
  have herr : err = none := by
    rcases marshalDnsQuestion_cases d with
      ⟨e, _, hq2⟩ | ⟨labels, off, _, ⟨hq2, _⟩ | ⟨t, cl, hq2, _⟩⟩
    · rw [hq] at hq2; cases hq2
    · rw [hq] at hq2; cases hq2
    · rw [hq] at hq2; cases hq2; rfl
  subst herr
  have hccap : c ≤ d.cap := by
    rcases marshalDnsQuestion_cases d with
      ⟨e, _, hq2⟩ | ⟨labels, off, _, ⟨hq2, _⟩ | ⟨t, cl, hq2, hle⟩⟩
    · rw [hq] at hq2; cases hq2
    · rw [hq] at hq2; cases hq2
    · rw [hq] at hq2; cases hq2; exact hle
  refine ⟨?_, ?_, fun s hs => MarshalDNS_eq s hs⟩
  · intro hdef
    obtain ⟨k, rfl⟩ : ∃ k, n = k + 1 := ⟨n - 1, by omega⟩
    rw [Nat.add_sub_cancel]
    exact marshalDnsQuestions_succ d k q c hcap hq (by omega)
  · unfold marshalDnsQuestions
    rw [marshalDnsQuestionsLoop_ok _ _ _ _ _ _ _ (Slice.sliceFrom_zero d) hq, Nat.zero_add,
      Nat.mod_eq_of_lt (by omega)]
    rfl

theorem C19_questions_back_to_back_witness :
    1 ≤ 2 ∧ (Slice.ofList (twoQuestionQuery.drop 12)).cap < 2 ^ 32 ∧
    marshalDnsQuestion (Slice.ofList (twoQuestionQuery.drop 12))
      = .ok (⟨[⟨1, [0x61]⟩], 0, 256⟩, 6, none) ∧
    marshalDnsQuestions (Slice.ofList (twoQuestionQuery.drop 12)) 1
      = .ok ([⟨[⟨1, [0x61]⟩], 0, 256⟩], 6, none) :=
  ⟨by decide, by decide, rfl,
    (C19_questions_back_to_back (Slice.ofList (twoQuestionQuery.drop 12)) 2 _ 6 none
      (by decide) (by decide) rfl).2.1⟩

/-- CLAIM C20, counterexample.  On the 1-byte slice `01` of an array that
continues with `61`, `len(data)/2` is 0, yet the loop body completes
`(len(data)+1)/2 = 1` time (the label is sliced out of the spare capacity, the
offset moves to 2): one evaluation of the loop condition does not end the run,
the second one panics. -/
theorem C20_counterexample_body_past_length :
    lengthByteInLargerArray.len / 2 = 0 ∧ (lengthByteInLargerArray.len + 1) / 2 = 1 ∧
    marshalNameLabelsLoop lengthByteInLargerArray 2 [] 0
      = marshalNameLabelsLoop lengthByteInLargerArray 1 [⟨1, [0x61]⟩] 2 ∧
    marshalNameLabelsLoop lengthByteInLargerArray 1 [] 0 = .error .noTermination ∧
    marshalNameLabelsLoop lengthByteInLargerArray 2 [] 0 = .error .indexOutOfRange ∧
    marshalNameLabels lengthByteInLargerArray = .error .indexOutOfRange :=
  ⟨by decide, by decide, rfl, rfl, rfl, rfl⟩

/-- CLAIM C20, amended.  On every buffer of capacity below `2 ^ 32`,
label-sequence decoding always ends (it returns or panics).  Each evaluation of
the loop condition either ends the run or is followed by a completed body that
advances the offset by `Length + 1 ≥ 2` bytes; so the body completes at most
`(len(data)+1)/2` times, whatever the spare capacity, and at most
`cap(data)/2` times (that is `len(data)/2` when the buffer has no spare
capacity): `(len(data)+1)/2 + 1` evaluations of the condition always suffice,
and so do `cap(data)/2 + 1`.  Every returned label sequence has at most
`len(data)/2` labels.  No length byte makes the loop run without progress. -/
theorem C20_label_decoding_ends (s : Slice) (hcap : s.cap < 2 ^ 32) :
    marshalNameLabels s ≠ .error .noTermination ∧
    (∀ fuel, (s.len + 1) / 2 + 1 ≤ fuel ∨ s.cap / 2 + 1 ≤ fuel →
      marshalNameLabelsLoop s fuel [] 0 = marshalNameLabels s) ∧
    (∀ labels n, marshalNameLabels s = .ok (labels, n) → labels.length ≤ s.len / 2) ∧
    (∀ (fuel : Nat) (acc : List QNameLabel) (o : Nat),
      (∃ e, e ≠ Fault.noTermination ∧
        marshalNameLabelsLoop s (fuel + 1) acc o = .error e) ∨
      marshalNameLabelsLoop s (fuel + 1) acc o = .ok (acc, o) ∨
      (∃ label : QNameLabel, 2 ≤ label.Length + 1 ∧
        marshalNameLabelsLoop s (fuel + 1) acc o
          = marshalNameLabelsLoop s fuel (acc ++ [label]) (o + (label.Length + 1)))) := by
  have hend := marshalNameLabels_ends s hcap
  refine ⟨hend, ?_, ?_, ?_⟩
  · -- any two amounts of fuel that are not used up give the same result
    have same : ∀ f g, marshalNameLabelsLoop s f [] 0 ≠ .error .noTermination →
        marshalNameLabelsLoop s g [] 0 ≠ .error .noTermination →
        marshalNameLabelsLoop s f [] 0 = marshalNameLabelsLoop s g [] 0 := by
      intro f g hf hg
      by_cases hle : f ≤ g
      · have := marshalNameLabelsLoop_fuel_mono s (g - f) _ _ _ _ rfl hf
        have e : f + (g - f) = g := by omega
        rw [e] at this
        exact this.symm
      · have := marshalNameLabelsLoop_fuel_mono s (f - g) _ _ _ _ rfl hg
        have e : g + (f - g) = f := by omega
        rw [e] at this
        exact this
    have up : ∀ f g, f ≤ g → marshalNameLabelsLoop s f [] 0 ≠ .error .noTermination →
        marshalNameLabelsLoop s g [] 0 ≠ .error .noTermination := by
      intro f g hfg hf
      have := marshalNameLabelsLoop_fuel_mono s (g - f) _ _ _ _ rfl hf
      have e : f + (g - f) = g := by omega
      rw [e] at this
      rw [this]
      exact hf
    intro fuel hf
    have hb1 : s.len - 0 + 2 ≤ 2 * ((s.len + 1) / 2 + 1) := by omega
    have h1 := marshalNameLabelsLoop_ends_len s hcap ((s.len + 1) / 2 + 1) [] 0 hb1
    have hb2 : s.cap - 0 + 1 ≤ 2 * (s.cap / 2 + 1) := by omega
    have h2 := marshalNameLabelsLoop_ends_cap s hcap (s.cap / 2 + 1) [] 0 (Nat.zero_le _) hb2
    have hfuel : marshalNameLabelsLoop s fuel [] 0 ≠ .error .noTermination := by
      rcases hf with hf | hf
      · exact up _ _ hf h1
      · exact up _ _ hf h2
    exact same _ _ hfuel hend
  · intro labels n h
    have h2 := marshalNameLabelsLoop_count s hcap _ [] 0 labels n h (by simp)
    have h3 := (marshalNameLabelsLoop_offset s _ [] 0 labels n h (by decide)).1
    omega
  · intro fuel acc o
    rcases marshalNameLabelsLoop_step s fuel acc o with
      ⟨e, he, hr⟩ | ⟨_, hr⟩ | ⟨label, _, h1, _, _, hc, hr⟩
    · exact Or.inl ⟨e, he, hr⟩
    · exact Or.inr (Or.inl hr)
    · refine Or.inr (Or.inr ⟨label, by omega, ?_⟩)
      rw [hr, Nat.mod_eq_of_lt (by omega)]

theorem C20_label_decoding_ends_witness :
    (Slice.ofList exampleName).cap < 2 ^ 32 ∧
    marshalNameLabels (Slice.ofList exampleName) ≠ .error .noTermination ∧
    ((Slice.ofList exampleName).len + 1) / 2 + 1 ≤ 8 ∧
    marshalNameLabelsLoop (Slice.ofList exampleName) 8 [] 0
      = marshalNameLabels (Slice.ofList exampleName) :=
  ⟨by decide, (C20_label_decoding_ends (Slice.ofList exampleName) (by decide)).1, by decide,
    (C20_label_decoding_ends (Slice.ofList exampleName) (by decide)).2.1 8
      (Or.inl (by decide))⟩

end Models
